import Mathlib

/-!
Verification of the Contexter runner (`ctx.py`) against its specification.

The Python source is shallowly embedded: each relevant Python function is
translated into a Lean definition of the same name (snake_case kept where
Lean allows), with Python machine-level details made explicit.  External
effects (filesystem existence, `git` lookups, regex-based alias rules) are
modelled as explicit function parameters.
-/

namespace Contexter

/-- `approx_tokens(chars)` from ctx.py: `max(1, chars // 4)`. -/
def approx_tokens (chars : Nat) : Nat := max 1 (chars / 4)

/-- One element of the `entries` list built by `build_entries`:
`{"path": rp, "lang": lang, "lines": lines, "truncated": False}`. -/
structure Entry where
  path : String
  lang : String
  lines : List String
  truncated : Bool
deriving DecidableEq, Repr

/-- The character count used inside `enforce_budget`:
`len("\n".join(e["lines"]))`. -/
def entryChars (e : Entry) : Nat := (String.intercalate "\n" e.lines).length

/-- The per-entry token estimate used by the budget pass. -/
def entryCost (e : Entry) : Nat := approx_tokens (entryChars e)

/-- The loop of `enforce_budget`, threading the running total `used`.
For each entry: if `used + est <= budget` the entry is kept and its cost
added; otherwise `e["truncated"] = True` is set (and `used` is *not*
increased).  The boolean is `truncated_any`. -/
def enforceBudgetGo (budget : Nat) : Nat → List Entry → List Entry × Bool
  | _, [] => ([], false)
  | used, e :: es =>
    let est := approx_tokens (entryChars e)
    if used + est ≤ budget then
      let r := enforceBudgetGo budget (used + est) es
      (e :: r.1, r.2)
    else
      let r := enforceBudgetGo budget used es
      ({ e with truncated := true } :: r.1, true)

/-- `enforce_budget(entries, cfg)` with `budget = cfg["budgets"]["token_limit"]`:
returns the updated entry list together with `truncated_any`. -/
def enforce_budget (entries : List Entry) (budget : Nat) : List Entry × Bool :=
  enforceBudgetGo budget 0 entries

/-- The pass as the specification describes it: accumulate a running total;
the first entry whose cost would push the total over the budget, and every
entry after it, is marked truncated. -/
def specPassFlags (budget : Nat) : Nat → List Nat → List Bool
  | _, [] => []
  | acc, c :: cs =>
    if budget < acc + c then (c :: cs).map (fun _ => true)
    else false :: specPassFlags budget (acc + c) cs

/-- The marking rule the code actually implements, expressed on costs:
an entry is marked iff its cost does not fit on top of the costs of the
*kept* entries before it; a marked entry's cost is not added, so later
entries may still be kept. -/
def greedyFlags (budget : Nat) : Nat → List Nat → List Bool
  | _, [] => []
  | used, c :: cs =>
    if used + c ≤ budget then false :: greedyFlags budget (used + c) cs
    else true :: greedyFlags budget used cs

/-- An entry with a single line of `n` copies of `'a'` (cost `max 1 (n/4)`). -/
def mkE (n : Nat) : Entry := ⟨"f.py", "python", [String.mk (List.replicate n 'a')], false⟩

/-- Costs 8, 5, 2 against budget 10: entry 2 overflows, entry 3 still fits. -/
def demoA : List Entry := [mkE 32, mkE 20, mkE 8]

/-- Costs 2, 3, 1, 1: budgets 4 and 5 give truncated counts 1 and 2. -/
def demoB : List Entry := [mkE 8, mkE 12, mkE 4, mkE 4]

/-- Number of entries with `truncated = True`. -/
def countTrunc (es : List Entry) : Nat := (es.filter (fun e => e.truncated)).length

theorem enforceBudgetGo_map_truncated (budget : Nat) :
    ∀ (es : List Entry) (used : Nat), (∀ e ∈ es, e.truncated = false) →
      (enforceBudgetGo budget used es).1.map Entry.truncated
        = greedyFlags budget used (es.map entryCost)
  | [], _, _ => rfl
  | e :: es, used, h => by
    have he : e.truncated = false := h e (List.mem_cons_self e es)
    have hes : ∀ x ∈ es, x.truncated = false := fun x hx => h x (List.mem_cons_of_mem e hx)
    simp only [enforceBudgetGo, List.map_cons, greedyFlags, entryCost]
    by_cases hc : used + approx_tokens (entryChars e) ≤ budget
    · simp only [hc, if_true]
      simp [enforceBudgetGo_map_truncated budget es _ hes, he]
    · simp only [hc, if_false]
      simp [enforceBudgetGo_map_truncated budget es _ hes]

/-- C1, counterexample: on entries of costs 8, 5, 2 with budget 10, the code
marks only the second entry, while the claimed rule ("the first entry that
would exceed the budget, and every entry after it") would also mark the
third. -/
theorem c1_budget_pass_counterexample :
    (enforce_budget demoA 10).1.map Entry.truncated = [false, true, false] ∧
    specPassFlags 10 0 (demoA.map entryCost) = [false, true, true] := by decide

/-- C1, amended: in the budget pass, an entry is marked `truncated = true`
iff its estimated cost `max(1, chars // 4)` does not fit on top of the total
cost of the *unmarked* entries before it; a marked entry's cost is not added
to the running total, so entries after it are still considered and kept when
they fit. -/
theorem c1_budget_pass_amended (entries : List Entry) (budget : Nat)
    (h : ∀ e ∈ entries, e.truncated = false) :
    (enforce_budget entries budget).1.map Entry.truncated
      = greedyFlags budget 0 (entries.map entryCost) :=
  enforceBudgetGo_map_truncated budget entries 0 h

theorem c1_budget_pass_amended_witness :
    (enforce_budget demoA 10).1.map Entry.truncated
      = greedyFlags 10 0 (demoA.map entryCost) :=
  c1_budget_pass_amended demoA 10 (by decide)

theorem enforceBudgetGo_snd (budget : Nat) :
    ∀ (es : List Entry) (used : Nat), used ≤ budget →
      (enforceBudgetGo budget used es).2
        = decide (budget < used + (es.map entryCost).sum)
  | [], used, h => by simp [enforceBudgetGo, Nat.not_lt.mpr h]
  | e :: es, used, h => by
    simp only [enforceBudgetGo, List.map_cons, List.sum_cons]
    by_cases hc : used + approx_tokens (entryChars e) ≤ budget
    · simp only [hc, if_true]
      have := enforceBudgetGo_snd budget es (used + approx_tokens (entryChars e)) hc
      rw [this]
      congr 1
      simp [entryCost]
      omega
    · simp only [hc, if_false]
      have hb : budget < used + (entryCost e + (es.map entryCost).sum) := by
        simp only [entryCost]
        omega
      simp [hb]

/-- C2, counterexample: with entries of costs 2, 3, 1, 1, raising the budget
from 4 to 5 *increases* the truncated-file count from 1 to 2. -/
theorem c2_budget_monotonicity_counterexample :
    (4 : Nat) ≤ 5 ∧
    countTrunc (enforce_budget demoB 4).1 = 1 ∧
    countTrunc (enforce_budget demoB 5).1 = 2 := by decide

/-- C2, amended: for a fixed entry list, *whether any* entry gets truncated
is antitone in the budget (the pass truncates something iff the total
estimated cost exceeds the budget), but the truncated-file *count* is not
antitone. -/
theorem c2_budget_monotonicity_amended (entries : List Entry) (b1 b2 : Nat)
    (hb : b1 ≤ b2) (h : (enforce_budget entries b2).2 = true) :
    (enforce_budget entries b1).2 = true := by
  have h2 := enforceBudgetGo_snd b2 entries 0 (Nat.zero_le _)
  have h1 := enforceBudgetGo_snd b1 entries 0 (Nat.zero_le _)
  unfold enforce_budget at *
  rw [h2] at h
  rw [h1]
  simp only [decide_eq_true_eq] at h ⊢
  omega

theorem c2_budget_monotonicity_amended_witness :
    (enforce_budget demoB 4).2 = true :=
  c2_budget_monotonicity_amended demoB 4 6 (by decide) (by decide)

/-! ## Freshness (`eval_pack_freshness`) -/

/-- `eval_pack_freshness(files, generated_iso)`.

`genTs` models `int(datetime.fromisoformat(generated_iso.replace("Z","")).timestamp())`:
`none` is a parse failure (the `except` branch returns `True`).
`commitTime rp` models `int(out.stdout.strip() or "0")` for
`git log -1 --format=%ct -- rp`: `none` is a lookup whose output fails to
parse (the inner `except: pass`, which leaves `last_touch` unchanged); a
path with no commit info yields `some 0` (empty output parsed as `"0"`). -/
def eval_pack_freshness (commitTime : String → Option Int) (files : List String)
    (genTs : Option Int) : Bool :=
  match genTs with
  | none => true
  | some gen_ts =>
    let last_touch := files.foldl
      (fun acc rp => match commitTime rp with | some t => max acc t | none => acc) 0
    decide (last_touch ≤ gen_ts)

/-- The maximum last-commit time over the packed paths, where a failed
lookup contributes `0`. -/
def maxCommitTime (commitTime : String → Option Int) (files : List String) : Int :=
  files.foldl (fun acc rp => max acc ((commitTime rp).getD 0)) 0

theorem freshness_fold_eq (commitTime : String → Option Int) :
    ∀ (files : List String) (acc : Int), 0 ≤ acc →
      files.foldl
        (fun a rp => match commitTime rp with | some t => max a t | none => a) acc
      = files.foldl (fun a rp => max a ((commitTime rp).getD 0)) acc
  | [], _, _ => rfl
  | f :: fs, acc, h => by
    simp only [List.foldl_cons]
    cases hc : commitTime f with
    | none =>
      simp only [Option.getD_none]
      rw [max_eq_left h]
      exact freshness_fold_eq commitTime fs acc h
    | some t =>
      simp only [Option.getD_some]
      exact freshness_fold_eq commitTime fs (max acc t) (le_trans h (le_max_left _ _))

/-- C6: with a parsable generation timestamp, the pack is declared fresh iff
the generation time is `≥` (non-strict) the maximum last-commit time over
all packed paths, where any failed lookup contributes `0`; in particular
equality yields freshness. -/
theorem c6_freshness_boundary (commitTime : String → Option Int)
    (files : List String) (g : Int) :
    eval_pack_freshness commitTime files (some g) = true
      ↔ maxCommitTime commitTime files ≤ g := by
  unfold eval_pack_freshness maxCommitTime
  rw [freshness_fold_eq commitTime files 0 le_rfl]
  simp

/-- C9: if the generation timestamp fails to parse, freshness evaluates to
`True` (fail-open), for every commit-time oracle and every file set. -/
theorem c9_freshness_parse_failure (commitTime : String → Option Int)
    (files : List String) :
    eval_pack_freshness commitTime files none = true := rfl

/-! ## Smart truncation: `largest_span` and the anchors of `emit_file_section` -/

/-- ASCII whitespace for the regex class `\s`. -/
def isPySpace (c : Char) : Bool :=
  c = ' ' || c = '\t' || c = '\n' || c = '\r' || c = '\x0b' || c = '\x0c'

/-- The regex class `[A-Za-z0-9_]`. -/
def isWordChar (c : Char) : Bool :=
  ('A' ≤ c && c ≤ 'Z') || ('a' ≤ c && c ≤ 'z') || ('0' ≤ c && c ≤ '9') || c = '_'

/-- Match a literal string case-sensitively, returning the remainder. -/
def matchLit : List Char → List Char → Option (List Char)
  | [], cs => some cs
  | _ :: _, [] => none
  | p :: ps, c :: cs => if c = p then matchLit ps cs else none

theorem matchLit_decomp : ∀ (lit cs r : List Char), matchLit lit cs = some r →
    ∃ pre, cs = pre ++ r ∧ pre.length = lit.length := by
  intro lit
  induction lit with
  | nil =>
    intro cs r h
    simp only [matchLit, Option.some.injEq] at h
    exact ⟨[], by simp [h], rfl⟩
  | cons p ps ih =>
    intro cs r h
    cases cs with
    | nil => simp [matchLit] at h
    | cons c cs' =>
      simp only [matchLit] at h
      split at h
      · obtain ⟨pre, hpre, hlen⟩ := ih cs' r h
        exact ⟨c :: pre, by simp [hpre], by simp [hlen]⟩
      · simp at h

/-- After a keyword alternative: `\s+[A-Za-z0-9_]+` (both greedy; since
whitespace and word characters are disjoint, backtracking cannot rescue a
failed greedy scan, so the greedy scan is exact). Returns the remainder
after the match, i.e. `m.end()`. -/
def matchWsWord (cs : List Char) : Option (List Char) :=
  let ws := cs.takeWhile isPySpace
  if ws.length = 0 then none
  else
    let r1 := cs.drop ws.length
    let w := r1.takeWhile isWordChar
    if w.length = 0 then none else some (r1.drop w.length)

theorem matchWsWord_decomp (cs r : List Char) (h : matchWsWord cs = some r) :
    ∃ pre, cs = pre ++ r ∧ 0 < pre.length := by
  simp only [matchWsWord] at h
  split at h
  · simp at h
  · split at h
    · simp at h
    · rename_i hws _
      simp only [Option.some.injEq] at h
      refine ⟨cs.take (cs.takeWhile isPySpace).length
          ++ (cs.drop (cs.takeWhile isPySpace).length).take
            ((cs.drop (cs.takeWhile isPySpace).length).takeWhile isWordChar).length, ?_, ?_⟩
      · rw [← h, List.append_assoc]
        conv_lhs => rw [← List.take_append_drop (cs.takeWhile isPySpace).length cs]
        congr 1
        conv_lhs => rw [← List.take_append_drop
          ((cs.drop (cs.takeWhile isPySpace).length).takeWhile isWordChar).length
          (cs.drop (cs.takeWhile isPySpace).length)]
      · have h1 : (cs.takeWhile isPySpace).length ≤ cs.length :=
          (List.takeWhile_prefix _).length_le
        simp only [List.length_append, List.length_take]
        omega

/-- The alternative `export\s+function`. -/
def matchExportFn (cs : List Char) : Option (List Char) :=
  match matchLit "export".data cs with
  | none => none
  | some r =>
    if (r.takeWhile isPySpace).length = 0 then none
    else matchLit "function".data (r.drop (r.takeWhile isPySpace).length)

theorem matchExportFn_decomp (cs r : List Char) (h : matchExportFn cs = some r) :
    ∃ pre, cs = pre ++ r ∧ 0 < pre.length := by
  simp only [matchExportFn] at h
  split at h
  · simp at h
  · rename_i m hm
    split at h
    · simp at h
    · obtain ⟨p2, hp2, _⟩ := matchLit_decomp _ _ _ h
      obtain ⟨p1, hp1, hl1⟩ := matchLit_decomp _ _ _ hm
      refine ⟨p1 ++ (m.take (m.takeWhile isPySpace).length ++ p2), ?_, by simp [hl1]⟩
      rw [hp1]
      have : m = m.take (m.takeWhile isPySpace).length ++ m.drop (m.takeWhile isPySpace).length :=
        (List.take_append_drop _ _).symm
      conv_lhs => rw [this, hp2]
      simp

/-- `(def|class|function|export\s+function)\s+[A-Za-z0-9_]+` anchored at the
current position; returns the remainder after the whole match (`m.end()`).
The four alternatives begin with distinct characters, so the regex's ordered
alternation matches at most one of them here. -/
def matchDeclAt (cs : List Char) : Option (List Char) :=
  match (matchLit "def".data cs).bind matchWsWord with
  | some r => some r
  | none =>
    match (matchLit "class".data cs).bind matchWsWord with
    | some r => some r
    | none =>
      match (matchLit "function".data cs).bind matchWsWord with
      | some r => some r
      | none => (matchExportFn cs).bind matchWsWord

theorem matchDeclAt_decomp (cs r : List Char) (h : matchDeclAt cs = some r) :
    ∃ pre, cs = pre ++ r ∧ 0 < pre.length := by
  have step : ∀ (lit : List Char), lit ≠ [] →
      ∀ (m : List Char), matchLit lit cs = some m → matchWsWord m = some r →
      ∃ pre, cs = pre ++ r ∧ 0 < pre.length := by
    intro lit hne m hm hw
    obtain ⟨p1, hp1, hl1⟩ := matchLit_decomp _ _ _ hm
    obtain ⟨p2, hp2, _⟩ := matchWsWord_decomp _ _ hw
    refine ⟨p1 ++ p2, by rw [hp1, hp2]; simp, ?_⟩
    have : 0 < lit.length := List.length_pos.mpr hne
    simp only [List.length_append]
    omega
  simp only [matchDeclAt] at h
  split at h
  · rename_i r1 h1
    cases h
    obtain ⟨m, hm, hw⟩ := Option.bind_eq_some.mp h1
    exact step _ (by decide) m hm hw
  · split at h
    · rename_i r2 h2
      cases h
      obtain ⟨m, hm, hw⟩ := Option.bind_eq_some.mp h2
      exact step _ (by decide) m hm hw
    · split at h
      · rename_i r3 h3
        cases h
        obtain ⟨m, hm, hw⟩ := Option.bind_eq_some.mp h3
        exact step _ (by decide) m hm hw
      · obtain ⟨m, hm, hw⟩ := Option.bind_eq_some.mp h
        obtain ⟨p1, hp1, hl1⟩ := matchExportFn_decomp _ _ hm
        obtain ⟨p2, hp2, _⟩ := matchWsWord_decomp _ _ hw
        refine ⟨p1 ++ p2, by rw [hp1, hp2]; simp, by simp only [List.length_append]; omega⟩

/-- `after.find("\n\n")`. -/
def findNlNl : List Char → Option Nat
  | [] => none
  | [_] => none
  | c :: d :: cs =>
    if c = '\n' ∧ d = '\n' then some 0
    else (findNlNl (d :: cs)).map (· + 1)

/-- The `re.finditer` loop of `largest_span`, fuelled by the remaining text
length (the scan advances at least one character per step, so fuel equal to
the text length suffices). `lineNo` is `text[:pos].count("\n") + 1` and
`atStart` says whether the position is at the beginning of a line (`^` under
`re.M`). On a match the span `(start, end)` is recorded exactly as in the
source and scanning resumes at `m.end()`, which is never a line start since
a match ends in a word character. -/
def scanSpansF (total : Nat) : Nat → List Char → Nat → Bool → List (Nat × Nat)
  | 0, _, _, _ => []
  | _ + 1, [], _, _ => []
  | fuel + 1, c :: cs, lineNo, atStart =>
    match (if atStart then matchDeclAt (c :: cs) else none) with
    | some rest =>
      let consumed := (c :: cs).length - rest.length
      let nlIn := ((c :: cs).take consumed).count '\n'
      let endRaw := match findNlNl rest with
        | some o => lineNo + ((rest.take o).count '\n' + 1)
        | none => lineNo + (total - lineNo)
      (lineNo, min (max endRaw (lineNo + 8)) total)
        :: scanSpansF total fuel rest (lineNo + nlIn) false
    | none =>
      scanSpansF total fuel cs (if c = '\n' then lineNo + 1 else lineNo) (c = '\n')

/-- `"\n".join(lines)`, as a character list. -/
def joinLines : List String → List Char
  | [] => []
  | [s] => s.data
  | s :: s' :: ss => s.data ++ '\n' :: joinLines (s' :: ss)

/-- `largest_span(lines)`: scan the joined text for declaration matches and
return the span maximizing `end - start`; Python's `max` keeps the first
maximal element, so the fold replaces only on a strictly greater key. -/
def largest_span (lines : List String) : Option (Nat × Nat) :=
  match scanSpansF lines.length (joinLines lines).length (joinLines lines) 1 true with
  | [] => none
  | s :: rest =>
    some (rest.foldl (fun best xy => if best.2 - best.1 < xy.2 - xy.1 then xy else best) s)

theorem scanSpansF_bounds (total : Nat) :
    ∀ (fuel : Nat) (cs : List Char) (lineNo : Nat) (atStart : Bool),
      cs.length ≤ fuel → 1 ≤ lineNo → lineNo + cs.count '\n' ≤ total →
      ∀ p ∈ scanSpansF total fuel cs lineNo atStart,
        1 ≤ p.1 ∧ p.1 ≤ p.2 ∧ p.2 ≤ total := by
  intro fuel
  induction fuel with
  | zero =>
    intro cs lineNo atStart _ _ _ p hp
    simp [scanSpansF] at hp
  | succ fuel ih =>
    intro cs lineNo atStart hlen h1 htot p hp
    cases cs with
    | nil => simp [scanSpansF] at hp
    | cons c cs' =>
      simp only [scanSpansF] at hp
      split at hp
      · rename_i rest hrest
        have hmd : matchDeclAt (c :: cs') = some rest := by
          cases atStart with
          | false => simp at hrest
          | true => simpa using hrest
        obtain ⟨pre, hpre, hprelen⟩ := matchDeclAt_decomp _ _ hmd
        have hlen2 : (c :: cs').length = pre.length + rest.length := by
          rw [hpre]; simp
        have hcnt2 : (c :: cs').count '\n' = pre.count '\n' + rest.count '\n' := by
          rw [hpre, List.count_append]
        simp only [List.mem_cons] at hp
        rcases hp with hp | hp
        · subst hp
          refine ⟨h1, le_min (le_trans (by omega) (le_max_right _ _)) (by omega),
            min_le_right _ _⟩
        · have hcount : ((c :: cs').take ((c :: cs').length - rest.length)).count '\n'
              = pre.count '\n' := by
            have hc2 : (c :: cs').length - rest.length = pre.length := by omega
            rw [hc2, hpre, List.take_left]
          rw [hcount] at hp
          exact ih rest (lineNo + pre.count '\n') false (by omega) (by omega) (by omega) p hp
      · have hlen' : cs'.length ≤ fuel := by simp at hlen; omega
        refine ih cs' (if c = '\n' then lineNo + 1 else lineNo) _ hlen' ?_ ?_ p hp
        · split <;> omega
        · rw [List.count_cons] at htot
          split
          · rename_i hcnl
            simp [hcnl] at htot
            omega
          · rename_i hcnl
            simp [hcnl] at htot
            omega

theorem foldl_pick_mem (rest : List (Nat × Nat)) :
    ∀ (s : Nat × Nat),
      rest.foldl (fun best xy => if best.2 - best.1 < xy.2 - xy.1 then xy else best) s
        ∈ s :: rest := by
  induction rest with
  | nil => intro s; simp
  | cons x xs ih =>
    intro s
    simp only [List.foldl_cons]
    by_cases hc : s.2 - s.1 < x.2 - x.1
    · rw [if_pos hc]
      have h := ih x
      simp only [List.mem_cons] at h ⊢
      tauto
    · rw [if_neg hc]
      have h := ih s
      simp only [List.mem_cons] at h ⊢
      tauto

theorem joinLines_count_nl :
    ∀ (lines : List String), (∀ s ∈ lines, '\n' ∉ s.data) →
      (joinLines lines).count '\n' = lines.length - 1
  | [], _ => rfl
  | [s], h => by
    simp [joinLines, List.count_eq_zero.mpr (h s (by simp))]
  | s :: s' :: ss, h => by
    have h1 : '\n' ∉ s.data := h s (by simp)
    have h2 : ∀ x ∈ s' :: ss, '\n' ∉ x.data := fun x hx => h x (by simp [hx])
    have hrec := joinLines_count_nl (s' :: ss) h2
    simp only [joinLines, List.count_append, List.count_cons] at *
    rw [List.count_eq_zero.mpr h1, hrec]
    simp

theorem largest_span_bounds (lines : List String)
    (hnl : ∀ s ∈ lines, '\n' ∉ s.data) (hne : lines ≠ [])
    (span : Nat × Nat) (h : largest_span lines = some span) :
    1 ≤ span.1 ∧ span.1 ≤ span.2 ∧ span.2 ≤ lines.length := by
  unfold largest_span at h
  split at h
  · simp at h
  · rename_i s rest hsr
    simp only [Option.some.injEq] at h
    have hmem : span ∈ s :: rest := h ▸ foldl_pick_mem rest s
    rw [← hsr] at hmem
    have hlen1 : 1 ≤ lines.length := by
      cases lines with
      | nil => exact absurd rfl hne
      | cons a l => simp
    exact scanSpansF_bounds lines.length (joinLines lines).length (joinLines lines) 1 true
      le_rfl le_rfl (by rw [joinLines_count_nl lines hnl]; omega) span hmem

/-- The `cfg["pack"]` keys read by `emit_file_section` (`mid_block_pick`
is compared against the string `"largest_function"`). -/
structure PackCfg where
  per_file_snippet_lines : Nat
  tail_lines_on_truncate : Nat
  mid_block_pick : Option String
deriving DecidableEq, Repr

/-- The `uniq` loop of `emit_file_section`: first-occurrence deduplication
(`if a not in uniq: uniq.append(a)`), with `seen` the reversed prefix built
so far. -/
def pyDedupGo : List (Nat × Nat) → List (Nat × Nat) → List (Nat × Nat)
  | _, [] => []
  | seen, a :: l => if a ∈ seen then pyDedupGo seen l else a :: pyDedupGo (a :: seen) l

def pyDedup (l : List (Nat × Nat)) : List (Nat × Nat) := pyDedupGo [] l

theorem mem_pyDedupGo (x : Nat × Nat) :
    ∀ (l seen : List (Nat × Nat)), x ∈ pyDedupGo seen l ↔ x ∈ l ∧ x ∉ seen := by
  intro l
  induction l with
  | nil => intro seen; simp [pyDedupGo]
  | cons a l ih =>
    intro seen
    simp only [pyDedupGo]
    split
    · rename_i ha
      rw [ih seen]
      simp only [List.mem_cons]
      by_cases hxa : x = a
      · subst hxa; tauto
      · tauto
    · rename_i ha
      simp only [List.mem_cons, ih (a :: seen)]
      by_cases hxa : x = a
      · subst hxa; tauto
      · tauto

theorem mem_pyDedup (x : Nat × Nat) (l : List (Nat × Nat)) :
    x ∈ pyDedup l ↔ x ∈ l := by
  rw [pyDedup, mem_pyDedupGo]
  simp

theorem nodup_pyDedupGo : ∀ (l seen : List (Nat × Nat)), (pyDedupGo seen l).Nodup := by
  intro l
  induction l with
  | nil => intro seen; simp [pyDedupGo]
  | cons a l ih =>
    intro seen
    simp only [pyDedupGo]
    split
    · exact ih seen
    · refine List.nodup_cons.mpr ⟨?_, ih (a :: seen)⟩
      rw [mem_pyDedupGo]
      rintro ⟨_, h2⟩
      exact h2 (List.mem_cons_self a seen)

/-- The sort key of `sorted(uniq, key=lambda x: x[0])`. -/
def anchorLE (a b : Nat × Nat) : Prop := a.1 ≤ b.1

instance : DecidableRel anchorLE := fun a b => Nat.decLe a.1 b.1

instance : IsTotal (Nat × Nat) anchorLE := ⟨fun a b => Nat.le_total a.1 b.1⟩

instance : IsTrans (Nat × Nat) anchorLE := ⟨fun _ _ _ => Nat.le_trans⟩

/-- `sorted(uniq, key=lambda x: x[0])` (Python's sort is stable; so is
insertion sort with a total preorder). -/
def sortByStart (l : List (Nat × Nat)) : List (Nat × Nat) := l.insertionSort anchorLE

/-- The anchor list printed by `emit_file_section` (its `- L{a}-L{b}` lines).
For a non-truncated file, the single head anchor `(1, min(total, max_lines))`;
for a truncated file, the head anchor `(1, max(1, min(total, max_lines - tail_n)))`,
the optional largest-declaration span, and the tail anchor
`(max(1, total - tail_n + 1), total)`, deduplicated and sorted by start.
Natural-number truncated subtraction agrees with the Python integer
arithmetic here: whenever `max_lines - tail_n` or `total - tail_n + 1` is
negative in Python, the enclosing `max(1, ...)`/`min(total, ...)` collapses
both to the same value as the `Nat` computation. -/
def emit_anchors (cfg : PackCfg) (lines : List String) (truncated : Bool) :
    List (Nat × Nat) :=
  let max_lines := cfg.per_file_snippet_lines
  let tail_n := cfg.tail_lines_on_truncate
  let total := lines.length
  if truncated = false then
    [(1, min total max_lines)]
  else
    let head_end := max 1 (min total (max_lines - tail_n))
    let anchors := [(1, head_end)]
    let anchors := if cfg.mid_block_pick = some "largest_function" then
        match largest_span lines with
        | some span => anchors ++ [span]
        | none => anchors
      else anchors
    let tail_start := max 1 (total - tail_n + 1)
    sortByStart (pyDedup (anchors ++ [(tail_start, total)]))

/-- The code block emitted by `fence(md, lang, start, end, lines)`:
`lines[start-1:end]`. -/
def fence_slice (lines : List String) (a b : Nat) : List String :=
  (lines.drop (a - 1)).take (b - (a - 1))

/-- The fenced excerpts of one file section, one per anchor, in anchor
order (both branches of `emit_file_section` call `fence` once per printed
anchor). -/
def emit_excerpts (cfg : PackCfg) (lines : List String) (truncated : Bool) :
    List (List String) :=
  (emit_anchors cfg lines truncated).map (fun ab => fence_slice lines ab.1 ab.2)

/-- Two inclusive line ranges overlap iff some line lies in both. -/
def rangesOverlap (a b : Nat × Nat) : Prop := a.1 ≤ b.2 ∧ b.1 ≤ a.2

/-- C3, counterexample: (i) with the default configuration
(`per_file_snippet_lines = 180`, `tail_lines_on_truncate = 40`) a truncated
50-line file yields the two distinct anchors `(1,50)` and `(11,50)`, which
overlap (lines 11–50 lie in both); (ii) a truncated 0-line file yields the
anchor `(1,1)`, which does not lie within `[1, 0]`; (iii) with
`tail_lines_on_truncate = 0` a truncated 5-line file yields the tail anchor
`(6,5)`, whose start lies outside `[1, 5]`. -/
theorem c3_anchor_invariants_counterexample :
    (emit_anchors ⟨180, 40, none⟩ (List.replicate 50 "x") true = [(1, 50), (11, 50)] ∧
      ((1, 50) : Nat × Nat) ≠ (11, 50) ∧ rangesOverlap (1, 50) (11, 50)) ∧
    (emit_anchors ⟨180, 40, none⟩ ([] : List String) true = [(1, 1), (1, 0)] ∧
      ¬ ((1 : Nat) ≤ 0)) ∧
    (emit_anchors ⟨180, 0, none⟩ (List.replicate 5 "x") true = [(1, 5), (6, 5)] ∧
      ¬ ((6 : Nat) ≤ 5)) := by
  constructor
  · exact ⟨by decide, by decide, by decide, by decide⟩
  · exact ⟨⟨by decide, by decide⟩, by decide, by decide⟩

/-- C3, amended: for a truncated *nonempty* file (its lines carrying no
embedded newline, as produced by `splitlines`) and a configuration with
`tail_lines_on_truncate ≥ 1`, the anchor set contains a range starting at
line 1 and a range ending at the last line, every range lies within
`[1, total]` with start ≤ end, and the ranges are pairwise distinct and
sorted ascending by start — but they may overlap. -/
theorem c3_anchor_invariants_amended (cfg : PackCfg) (lines : List String)
    (hne : lines ≠ []) (htail : 1 ≤ cfg.tail_lines_on_truncate)
    (hnl : ∀ s ∈ lines, '\n' ∉ s.data) :
    (∃ b, (1, b) ∈ emit_anchors cfg lines true) ∧
    (∃ a, (a, lines.length) ∈ emit_anchors cfg lines true) ∧
    (∀ p ∈ emit_anchors cfg lines true, 1 ≤ p.1 ∧ p.1 ≤ p.2 ∧ p.2 ≤ lines.length) ∧
    (emit_anchors cfg lines true).Nodup ∧
    (emit_anchors cfg lines true).Sorted anchorLE := by
  have hlen1 : 1 ≤ lines.length := List.length_pos.mpr hne
  have key : ∃ A0 : List (Nat × Nat),
      emit_anchors cfg lines true = sortByStart (pyDedup A0) ∧
      (1, max 1 (min lines.length
        (cfg.per_file_snippet_lines - cfg.tail_lines_on_truncate))) ∈ A0 ∧
      (max 1 (lines.length - cfg.tail_lines_on_truncate + 1), lines.length) ∈ A0 ∧
      ∀ p ∈ A0, 1 ≤ p.1 ∧ p.1 ≤ p.2 ∧ p.2 ≤ lines.length := by
    have hhead : 1 ≤ max 1 (min lines.length
        (cfg.per_file_snippet_lines - cfg.tail_lines_on_truncate)) ∧
        max 1 (min lines.length
          (cfg.per_file_snippet_lines - cfg.tail_lines_on_truncate)) ≤ lines.length :=
      ⟨le_max_left _ _, max_le hlen1 (min_le_left _ _)⟩
    have htailb : 1 ≤ max 1 (lines.length - cfg.tail_lines_on_truncate + 1) ∧
        max 1 (lines.length - cfg.tail_lines_on_truncate + 1) ≤ lines.length :=
      ⟨le_max_left _ _, max_le hlen1 (by omega)⟩
    simp only [emit_anchors]
    rw [if_neg (by decide : ¬ (true = false))]
    by_cases hmid : cfg.mid_block_pick = some "largest_function"
    · rw [if_pos hmid]
      cases hls : largest_span lines with
      | none =>
        refine ⟨[(1, _), (_, lines.length)], rfl, by simp, by simp, ?_⟩
        intro p hp
        cases hp with
        | head => exact ⟨le_refl 1, hhead.1, hhead.2⟩
        | tail _ hp =>
          cases hp with
          | head => exact ⟨htailb.1, htailb.2, le_refl _⟩
          | tail _ hp => cases hp
      | some span =>
        refine ⟨[(1, _), span, (_, lines.length)], rfl, by simp, by simp, ?_⟩
        intro p hp
        cases hp with
        | head => exact ⟨le_refl 1, hhead.1, hhead.2⟩
        | tail _ hp =>
          cases hp with
          | head => exact largest_span_bounds lines hnl hne span hls
          | tail _ hp =>
            cases hp with
            | head => exact ⟨htailb.1, htailb.2, le_refl _⟩
            | tail _ hp => cases hp
    · rw [if_neg hmid]
      refine ⟨[(1, _), (_, lines.length)], rfl, by simp, by simp, ?_⟩
      intro p hp
      cases hp with
      | head => exact ⟨le_refl 1, hhead.1, hhead.2⟩
      | tail _ hp =>
        cases hp with
        | head => exact ⟨htailb.1, htailb.2, le_refl _⟩
        | tail _ hp => cases hp
  obtain ⟨A0, hA, hh, ht, hb⟩ := key
  have hmemsort : ∀ x : Nat × Nat, x ∈ sortByStart (pyDedup A0) ↔ x ∈ A0 := by
    intro x
    rw [sortByStart]
    rw [(List.perm_insertionSort anchorLE (pyDedup A0)).mem_iff]
    exact mem_pyDedup x A0
  rw [hA]
  refine ⟨⟨_, (hmemsort _).mpr hh⟩, ⟨_, (hmemsort _).mpr ht⟩,
    fun p hp => hb p ((hmemsort p).mp hp), ?_, ?_⟩
  · exact ((List.perm_insertionSort anchorLE (pyDedup A0)).nodup_iff).mpr
      (nodup_pyDedupGo A0 [])
  · exact List.sorted_insertionSort anchorLE (pyDedup A0)

theorem c3_anchor_invariants_amended_witness :
    (∃ b, (1, b) ∈ emit_anchors ⟨180, 40, none⟩ (List.replicate 50 "x") true) ∧
    (∃ a, (a, (List.replicate 50 "x").length)
      ∈ emit_anchors ⟨180, 40, none⟩ (List.replicate 50 "x") true) ∧
    (∀ p ∈ emit_anchors ⟨180, 40, none⟩ (List.replicate 50 "x") true,
      1 ≤ p.1 ∧ p.1 ≤ p.2 ∧ p.2 ≤ (List.replicate 50 "x").length) ∧
    (emit_anchors ⟨180, 40, none⟩ (List.replicate 50 "x") true).Nodup ∧
    (emit_anchors ⟨180, 40, none⟩ (List.replicate 50 "x") true).Sorted anchorLE :=
  c3_anchor_invariants_amended ⟨180, 40, none⟩ (List.replicate 50 "x")
    (by decide) (by decide) (by decide)

/-- C5: a truncated file of exactly 500 lines with
`per_file_snippet_lines = 180`, `tail_lines_on_truncate = 40` and no
declaration detected produces exactly the anchors `(1, 140)` and
`(461, 500)`. -/
theorem c5_truncation_concrete (lines : List String)
    (h500 : lines.length = 500) (hnone : largest_span lines = none) :
    emit_anchors ⟨180, 40, some "largest_function"⟩ lines true
      = [(1, 140), (461, 500)] := by
  simp only [emit_anchors, h500, hnone]
  decide

set_option maxRecDepth 10000 in
theorem c5_truncation_concrete_witness :
    emit_anchors ⟨180, 40, some "largest_function"⟩ (List.replicate 500 "") true
      = [(1, 140), (461, 500)] :=
  c5_truncation_concrete (List.replicate 500 "") (by decide) (by decide)

/-- C10: a file that was *not* marked truncated but whose line count exceeds
`per_file_snippet_lines` still gets exactly one anchor and one excerpt,
covering only lines `1 .. per_file_snippet_lines`; its remaining lines are
omitted from the section. -/
theorem c10_untruncated_clip (cfg : PackCfg) (lines : List String)
    (h : cfg.per_file_snippet_lines < lines.length) :
    emit_anchors cfg lines false = [(1, cfg.per_file_snippet_lines)] ∧
    emit_excerpts cfg lines false = [lines.take cfg.per_file_snippet_lines] := by
  have hmin : min lines.length cfg.per_file_snippet_lines = cfg.per_file_snippet_lines :=
    min_eq_right (le_of_lt h)
  refine ⟨by simp [emit_anchors, hmin], ?_⟩
  simp [emit_excerpts, emit_anchors, hmin, fence_slice]

theorem c10_untruncated_clip_witness :
    emit_anchors ⟨3, 40, none⟩ (List.replicate 5 "x") false = [(1, 3)] ∧
    emit_excerpts ⟨3, 40, none⟩ (List.replicate 5 "x") false
      = [(List.replicate 5 "x").take 3] :=
  c10_untruncated_clip ⟨3, 40, none⟩ (List.replicate 5 "x") (by decide)

/-! ## Dependency sanity (`resolve_dep_target`, `dep_sanity_check`) and the
exit behaviour of `cmd_run` -/

/-- A dependency edge `(a, b, k)` as produced by `infer_deps`. -/
structure Edge where
  src : String
  target : String
  kind : String
deriving DecidableEq, Repr

/-- `c.strip("/.")`: remove all leading and trailing `'/'` and `'.'`. -/
def pyStripDotSlash (s : String) : String :=
  String.mk (((s.data.dropWhile (fun c => c = '/' || c = '.')).reverse.dropWhile
    (fun c => c = '/' || c = '.')).reverse)

/-- The candidate file forms appended for one alias candidate in
`resolve_dep_target`. -/
def expandCandidate (c : String) : List String :=
  [c,
   c ++ ".py", c ++ ".ts", c ++ ".tsx", c ++ ".js",
   c ++ "/__init__.py", c ++ "/index.ts", c ++ "/index.tsx", c ++ "/index.js",
   c ++ ".cpp", c ++ ".hpp", c ++ ".cc", c ++ ".cxx", c ++ ".c", c ++ ".h",
   c ++ ".cu"]

/-- The `seen`/`final` loop of `resolve_dep_target`: first-occurrence
deduplication over strings. -/
def pyDedupStrGo : List String → List String → List String
  | _, [] => []
  | seen, a :: l => if a ∈ seen then pyDedupStrGo seen l else a :: pyDedupStrGo (a :: seen) l

/-- `resolve_dep_target(raw_target, cfg)`.  The two regex-driven pieces are
parameters: `ignoreHit` models `any(rx.search(raw_target) for rx in ignores)`
over `deps.ignore_targets`, and `applyAliases` models `apply_aliases`
(which returns `[target]` when no alias rule matches).  Note that an
ignored target yields `[]`, so `any([])` is false downstream. -/
def resolve_dep_target (ignoreHit : String → Bool) (applyAliases : String → List String)
    (raw : String) : List String :=
  if ignoreHit raw then []
  else
    let expanded := (applyAliases raw).foldl (fun acc c0 =>
      let c := pyStripDotSlash c0
      if c = "" then acc
      else if c.startsWith "http" then acc
      else acc ++ expandCandidate c) []
    pyDedupStrGo [] expanded

/-- Python's `str.lower()` for ASCII text (`String.toLower` is defined by
well-founded recursion over byte positions and does not reduce in the
kernel, so the character-list map is used instead). -/
def lowerChar (c : Char) : Char :=
  if 'A' ≤ c && c ≤ 'Z' then Char.ofNat (c.toNat + 32) else c

def pyLower (s : String) : String := String.mk (s.data.map lowerChar)

/-- `(cfg.get("deps", {}).get("sanity_mode") or "warn").lower()`: a missing
key and the empty string (both falsy under `or`) default to `"warn"`. -/
def sanityMode (m : Option String) : String :=
  match m with
  | none => "warn"
  | some s => if s = "" then "warn" else pyLower s

/-- The membership test of the `missing` list in `dep_sanity_check`:
external kinds (`http`/`db`/`queue`) are skipped; otherwise the edge is
missing iff no resolved candidate exists on disk. -/
def depMissingPred (resolve : String → List String) (fsExists : String → Bool)
    (e : Edge) : Bool :=
  if e.kind == "http" || e.kind == "db" || e.kind == "queue" then false
  else ! (resolve e.target).any fsExists

/-- `dep_sanity_check(edges, cfg)`, returning `(ok, missing)`.  Filesystem
existence (`(ROOT/c).exists()`) is the parameter `fsExists`; target
resolution is the parameter `resolve`. -/
def dep_sanity_check (resolve : String → List String) (fsExists : String → Bool)
    (edges : List Edge) (mode : Option String) : Bool × List Edge :=
  let m := sanityMode mode
  if m = "off" then (true, [])
  else
    let missing := edges.filter (depMissingPred resolve fsExists)
    if m = "strict" then (missing.isEmpty, missing) else (true, missing)

/-- The exit behaviour of `cmd_run`: abstention on missing rare facts
(exit 2, before any dependency work), then the guard check (a non-empty
`outside` list exits 3), then the strict-mode dependency/freshness gate
(exit 3), else `DONE` (exit 0).  The second component is
`totals["dep_missing_count"]` (`len(missing) if missing else 0`), which is
reported in the pack whenever one is written. -/
def cmd_run_exit (rare_missing : Bool) (outside : List String)
    (resolve : String → List String) (fsExists : String → Bool)
    (edges : List Edge) (mode : Option String) (fresh_ok : Bool) : Nat × Nat :=
  if rare_missing then (2, 0)
  else
    let r := dep_sanity_check resolve fsExists edges mode
    let gates_ok := r.1 && fresh_ok
    let depMissingCount := r.2.length
    if outside ≠ [] then (3, depMissingCount)
    else if !gates_ok && (pyLower (mode.getD "warn") == "strict") then (3, depMissingCount)
    else (0, depMissingCount)

theorem dep_sanity_check_strict (resolve : String → List String)
    (fsExists : String → Bool) (edges : List Edge) :
    dep_sanity_check resolve fsExists edges (some "strict")
      = ((edges.filter (depMissingPred resolve fsExists)).isEmpty,
          edges.filter (depMissingPred resolve fsExists)) := by
  simp only [dep_sanity_check]
  rw [show sanityMode (some "strict") = "strict" by decide]
  rw [if_neg (by decide : ¬ ("strict" : String) = "off"), if_pos rfl]

theorem dep_sanity_check_warn (resolve : String → List String)
    (fsExists : String → Bool) (edges : List Edge) :
    dep_sanity_check resolve fsExists edges (some "warn")
      = (true, edges.filter (depMissingPred resolve fsExists)) := by
  simp only [dep_sanity_check]
  rw [show sanityMode (some "warn") = "warn" by decide]
  rw [if_neg (by decide : ¬ ("warn" : String) = "off"),
    if_neg (by decide : ¬ ("warn" : String) = "strict")]

/-- C4: when some edge of a non-external kind has a target that (after
ignore filtering, alias rewriting and suffix expansion) matches no existing
path, `sanity_mode = "strict"` exits 3 (whatever the freshness outcome),
while `sanity_mode = "warn"` with the other gates passing exits 0 and still
reports the positive missing-edge count. -/
theorem c4_strict_mode_gating (ignoreHit : String → Bool)
    (applyAliases : String → List String) (fsExists : String → Bool)
    (edges : List Edge) (e : Edge) (he : e ∈ edges)
    (hkind : e.kind ≠ "http" ∧ e.kind ≠ "db" ∧ e.kind ≠ "queue")
    (hmiss : ∀ c ∈ resolve_dep_target ignoreHit applyAliases e.target,
      fsExists c = false) :
    (∀ fresh_ok,
      (cmd_run_exit false [] (resolve_dep_target ignoreHit applyAliases) fsExists
        edges (some "strict") fresh_ok).1 = 3) ∧
    (cmd_run_exit false [] (resolve_dep_target ignoreHit applyAliases) fsExists
        edges (some "warn") true).1 = 0 ∧
    1 ≤ (cmd_run_exit false [] (resolve_dep_target ignoreHit applyAliases) fsExists
        edges (some "warn") true).2 := by
  have hcond : (e.kind == "http" || e.kind == "db" || e.kind == "queue") = false := by
    obtain ⟨h1, h2, h3⟩ := hkind
    simp [h1, h2, h3]
  have hany : ((resolve_dep_target ignoreHit applyAliases e.target).any fsExists)
      = false := by
    rw [List.any_eq_false]
    intro c hc
    simp [hmiss c hc]
  have hpred : depMissingPred (resolve_dep_target ignoreHit applyAliases) fsExists e
      = true := by
    rw [depMissingPred]
    simp only [hcond, if_false, hany]
    rfl
  have hmem : e ∈ edges.filter
      (depMissingPred (resolve_dep_target ignoreHit applyAliases) fsExists) :=
    List.mem_filter.mpr ⟨he, hpred⟩
  have hne : edges.filter
      (depMissingPred (resolve_dep_target ignoreHit applyAliases) fsExists) ≠ [] :=
    List.ne_nil_of_mem hmem
  have hlen : 1 ≤ (edges.filter
      (depMissingPred (resolve_dep_target ignoreHit applyAliases) fsExists)).length :=
    List.length_pos.mpr hne
  have hempty : (edges.filter
      (depMissingPred (resolve_dep_target ignoreHit applyAliases) fsExists)).isEmpty
      = false := by
    cases hfe : edges.filter
        (depMissingPred (resolve_dep_target ignoreHit applyAliases) fsExists) with
    | nil => exact absurd hfe hne
    | cons a l => rfl
  refine ⟨fun fresh_ok => ?_, ?_, ?_⟩
  · simp only [cmd_run_exit, dep_sanity_check_strict, hempty]
    simp [show (pyLower "strict" == "strict") = true from by decide]
  · simp only [cmd_run_exit, dep_sanity_check_warn]
    simp
  · simp only [cmd_run_exit, dep_sanity_check_warn]
    simp [hlen]

theorem c4_strict_mode_gating_witness :
    (∀ fresh_ok,
      (cmd_run_exit false [] (resolve_dep_target (fun _ => false) (fun t => [t]))
        (fun _ => false) [⟨"a.py", "missingmod", "import"⟩] (some "strict") fresh_ok).1
        = 3) ∧
    (cmd_run_exit false [] (resolve_dep_target (fun _ => false) (fun t => [t]))
        (fun _ => false) [⟨"a.py", "missingmod", "import"⟩] (some "warn") true).1 = 0 ∧
    1 ≤ (cmd_run_exit false [] (resolve_dep_target (fun _ => false) (fun t => [t]))
        (fun _ => false) [⟨"a.py", "missingmod", "import"⟩] (some "warn") true).2 :=
  c4_strict_mode_gating (fun _ => false) (fun t => [t]) (fun _ => false)
    [⟨"a.py", "missingmod", "import"⟩] ⟨"a.py", "missingmod", "import"⟩
    (by decide) (by decide) (fun c _ => rfl)

/-! ## C8: the optional `call` / `async_call` dependency kinds
(spec-modelled: no extraction branch for them exists in `src/ctx.py`) -/

/-- Whether a text token is a bare function-call token: an identifier
immediately followed by an opening parenthesis, e.g. `foo(`; returns the
identifier. -/
def callTokenName (tok : String) : Option String :=
  match tok.data.getLast? with
  | some '(' =>
    let name := tok.data.dropLast
    if !name.isEmpty && name.all isWordChar then some (String.mk name) else none
  | _ => none

/-- Modelled from the spec: `infer_deps` in `src/ctx.py` has no branch for
the optional `call`/`async_call` dependency kinds (the runner header notes
they are off by default, and §9 of the specification attributes them to the
second, drifted pipeline variant, which is not under `src/`).  Per §4.2:
when enabled, any bare function-call token — or any call preceded by an
async-wait keyword — yields an edge whose target is the symbolic
placeholder `<symbol:name>`. -/
def infer_deps_calls (path : String) (kinds : List String)
    (tokens : List String) : List Edge :=
  go none tokens
where
  go : Option String → List String → List Edge
    | _, [] => []
    | prev, t :: ts =>
      let rest := go (some t) ts
      match callTokenName t with
      | some n =>
        if prev = some "await" then
          if "async_call" ∈ kinds then
            ⟨path, "<symbol:" ++ n ++ ">", "async_call"⟩ :: rest
          else rest
        else
          if "call" ∈ kinds then
            ⟨path, "<symbol:" ++ n ++ ">", "call"⟩ :: rest
          else rest
      | none => rest

/-- A symbolic placeholder target `<symbol:...>`. -/
def isSymbolicTarget (t : String) : Bool := "<symbol:".data.isPrefixOf t.data

/-- Modelled from the spec: §4.5 — "Symbolic call/async-call placeholder
targets are always treated as resolved (never flagged missing)."  The
dependency sanity checker of the call-enabled pipeline variant therefore
skips symbolic placeholder targets before attempting filesystem
resolution; everything else matches `dep_sanity_check`. -/
def dep_sanity_check_sym (resolve : String → List String) (fsExists : String → Bool)
    (edges : List Edge) (mode : Option String) : Bool × List Edge :=
  let m := sanityMode mode
  if m = "off" then (true, [])
  else
    let missing := edges.filter (fun e =>
      if e.kind == "http" || e.kind == "db" || e.kind == "queue" then false
      else if isSymbolicTarget e.target then false
      else ! (resolve e.target).any fsExists)
    if m = "strict" then (missing.isEmpty, missing) else (true, missing)

theorem isSymbolicTarget_placeholder (n : String) :
    isSymbolicTarget ("<symbol:" ++ n ++ ">") = true := by
  rw [isSymbolicTarget]
  have h1 : ("<symbol:" ++ n ++ ">").data = "<symbol:".data ++ (n.data ++ ">".data) := by
    rw [String.data_append, String.data_append, List.append_assoc]
  rw [h1]
  have h2 : "<symbol:".data = ['<', 's', 'y', 'm', 'b', 'o', 'l', ':'] := rfl
  rw [h2]
  simp [List.isPrefixOf]

theorem infer_deps_calls_go_sound (path : String) (kinds : List String) :
    ∀ (ts : List String) (prev : Option String),
      ∀ e ∈ infer_deps_calls.go path kinds prev ts,
        e.src = path ∧ (e.kind = "call" ∨ e.kind = "async_call") ∧
        ∃ n, e.target = "<symbol:" ++ n ++ ">" := by
  intro ts
  induction ts with
  | nil =>
    intro prev e he
    simp [infer_deps_calls.go] at he
  | cons t ts ih =>
    intro prev e he
    simp only [infer_deps_calls.go] at he
    split at he
    · rename_i n hct
      split at he
      · split at he
        · cases he with
          | head => exact ⟨rfl, Or.inr rfl, n, rfl⟩
          | tail _ h => exact ih (some t) e h
        · exact ih (some t) e he
      · split at he
        · cases he with
          | head => exact ⟨rfl, Or.inl rfl, n, rfl⟩
          | tail _ h => exact ih (some t) e h
        · exact ih (some t) e he
    · exact ih (some t) e he

theorem infer_deps_calls_go_produces (path : String) (kinds : List String)
    (hc : "call" ∈ kinds) (ha : "async_call" ∈ kinds) :
    ∀ (pre : List String) (prev : Option String) (t : String) (post : List String)
      (n : String), callTokenName t = some n →
      ∃ k, (k = "call" ∨ k = "async_call") ∧
        (⟨path, "<symbol:" ++ n ++ ">", k⟩ : Edge)
          ∈ infer_deps_calls.go path kinds prev (pre ++ t :: post) := by
  intro pre
  induction pre with
  | nil =>
    intro prev t post n hn
    simp only [List.nil_append, infer_deps_calls.go, hn]
    by_cases hprev : prev = some "await"
    · rw [if_pos hprev, if_pos ha]
      exact ⟨"async_call", Or.inr rfl, List.mem_cons_self _ _⟩
    · rw [if_neg hprev, if_pos hc]
      exact ⟨"call", Or.inl rfl, List.mem_cons_self _ _⟩
  | cons p pre ih =>
    intro prev t post n hn
    obtain ⟨k, hk, hmem⟩ := ih (some p) t post n hn
    refine ⟨k, hk, ?_⟩
    simp only [List.cons_append, infer_deps_calls.go]
    split
    all_goals try split
    all_goals first
      | exact hmem
      | exact List.mem_cons_of_mem _ hmem

theorem dep_sanity_check_sym_skips (resolve : String → List String)
    (fsExists : String → Bool) (edges : List Edge) (mode : Option String)
    (e : Edge) (hsym : isSymbolicTarget e.target = true) :
    e ∉ (dep_sanity_check_sym resolve fsExists edges mode).2 := by
  intro hmem
  simp only [dep_sanity_check_sym] at hmem
  split at hmem
  · simp at hmem
  · split at hmem <;>
    · have hpred := (List.mem_filter.mp hmem).2
      rw [hsym] at hpred
      split at hpred
      · simp at hpred
      · simp at hpred

/-- C8 (spec-modelled): with the `call` and `async_call` kinds enabled, the
extractor emits edges only of those kinds, always targeting a symbolic
placeholder `<symbol:name>`; every bare call token yields such an edge
(kind `async_call` exactly when preceded by the async-wait keyword); and
the sanity checker never reports an edge with a symbolic placeholder
target as missing. -/
theorem c8_symbolic_calls (path : String) (tokens : List String)
    (kinds : List String) (hc : "call" ∈ kinds) (ha : "async_call" ∈ kinds) :
    (∀ e ∈ infer_deps_calls path kinds tokens,
      e.src = path ∧ (e.kind = "call" ∨ e.kind = "async_call") ∧
      ∃ n, e.target = "<symbol:" ++ n ++ ">") ∧
    (∀ (pre : List String) (t : String) (post : List String) (n : String),
      tokens = pre ++ t :: post → callTokenName t = some n →
      ∃ k, (k = "call" ∨ k = "async_call") ∧
        (⟨path, "<symbol:" ++ n ++ ">", k⟩ : Edge) ∈ infer_deps_calls path kinds tokens) ∧
    (∀ (resolve : String → List String) (fsExists : String → Bool)
        (mode : Option String) (edges : List Edge) (e : Edge),
      isSymbolicTarget e.target = true →
      e ∉ (dep_sanity_check_sym resolve fsExists edges mode).2) := by
  refine ⟨?_, ?_, ?_⟩
  · intro e he
    exact infer_deps_calls_go_sound path kinds tokens none e he
  · intro pre t post n htok hn
    rw [infer_deps_calls, htok]
    exact infer_deps_calls_go_produces path kinds hc ha pre none t post n hn
  · intro resolve fsExists mode edges e hsym
    exact dep_sanity_check_sym_skips resolve fsExists edges mode e hsym

theorem c8_symbolic_calls_witness :
    (∀ e ∈ infer_deps_calls "m.py" ["call", "async_call"] ["await", "f("],
      e.src = "m.py" ∧ (e.kind = "call" ∨ e.kind = "async_call") ∧
      ∃ n, e.target = "<symbol:" ++ n ++ ">") ∧
    (∀ (pre : List String) (t : String) (post : List String) (n : String),
      ["await", "f("] = pre ++ t :: post → callTokenName t = some n →
      ∃ k, (k = "call" ∨ k = "async_call") ∧
        (⟨"m.py", "<symbol:" ++ n ++ ">", k⟩ : Edge)
          ∈ infer_deps_calls "m.py" ["call", "async_call"] ["await", "f("]) ∧
    (∀ (resolve : String → List String) (fsExists : String → Bool)
        (mode : Option String) (edges : List Edge) (e : Edge),
      isSymbolicTarget e.target = true →
      e ∉ (dep_sanity_check_sym resolve fsExists edges mode).2) :=
  c8_symbolic_calls "m.py" ["await", "f("] ["call", "async_call"]
    (by decide) (by decide)

/-! ## Secret scrub (`SCRUB_PATTERNS`, `secret_scrub`)

The three patterns `(?i)(api[_-]?key)\\s*[:=]\\s*\\S+`, `(?i)(secret)...`,
`(?i)(token)...` share one shape: a case-insensitive key (the capture
`\\1`), then `\\s*[:=]\\s*\\S+`.  `re.sub` scans left-to-right,
non-overlapping, replacing each match by `\\1: [REDACTED]`.  Since `\\s`,
`[:=]` and `\\S` are pairwise disjoint character classes, the greedy scans
below are exact (regex backtracking cannot turn any failure into a
success), and each alternative/optional piece of the keys is resolved
deterministically. -/

/-- The type of a keyword matcher: on success, the consumed key (the
backreference `\\1`, original case preserved) and the remainder. -/
abbrev KMFun := List Char → Option (List Char × List Char)

/-- Case-insensitive comparison of a text character against a pattern
character, covering the characters that occur in `SCRUB_PATTERNS` (this is
`(?i)`; the patterns contain only these lowercase letters plus `_` `-`
`:` `=`, so the table is exhaustive for them). -/
def ciEq (c p : Char) : Bool :=
  c == p ||
  (p == 'a' && c == 'A') || (p == 'p' && c == 'P') || (p == 'i' && c == 'I') ||
  (p == 'k' && c == 'K') || (p == 'e' && c == 'E') || (p == 'y' && c == 'Y') ||
  (p == 's' && c == 'S') || (p == 'c' && c == 'C') || (p == 'r' && c == 'R') ||
  (p == 't' && c == 'T') || (p == 'o' && c == 'O') || (p == 'n' && c == 'N')

/-- Case folding for the pattern characters (identity elsewhere). -/
def foldCase (c : Char) : Char :=
  match c with
  | 'A' => 'a' | 'P' => 'p' | 'I' => 'i' | 'K' => 'k' | 'E' => 'e' | 'Y' => 'y'
  | 'S' => 's' | 'C' => 'c' | 'R' => 'r' | 'T' => 't' | 'O' => 'o' | 'N' => 'n'
  | c => c

theorem ciEq_fold {c p : Char} (h : ciEq c p = true) : foldCase c = foldCase p := by
  simp only [ciEq, Bool.or_eq_true, Bool.and_eq_true, beq_iff_eq] at h
  casesm* _ ∨ _
  all_goals try casesm* _ ∧ _
  all_goals subst_vars
  all_goals rfl

/-- A character that can occur in a scrub key (letters, `_`, `-`). -/
def isKeyChar (c : Char) : Bool :=
  ('A' ≤ c && c ≤ 'Z') || ('a' ≤ c && c ≤ 'z') || c == '_' || c == '-'

theorem isKeyChar_foldCase (c : Char) : isKeyChar (foldCase c) = isKeyChar c := by
  simp only [foldCase]
  split <;> rfl

theorem not_space_of_keyChar {c : Char} (h : isKeyChar c = true) :
    isPySpace c = false := by
  by_contra hs
  rw [Bool.not_eq_false] at hs
  simp only [isPySpace, Bool.or_eq_true, decide_eq_true_eq] at hs
  casesm* _ ∨ _
  all_goals subst_vars
  all_goals exact absurd h (by decide)

/-- Match a pattern literal case-insensitively, returning the consumed
characters (original case) and the rest. -/
def matchLitCI : List Char → List Char → Option (List Char × List Char)
  | [], cs => some ([], cs)
  | _ :: _, [] => none
  | p :: ps, c :: cs =>
    if ciEq c p then
      match matchLitCI ps cs with
      | some (k, r) => some (c :: k, r)
      | none => none
    else none

theorem matchLitCI_verbatim :
    ∀ (ps cs k r : List Char), matchLitCI ps cs = some (k, r) → cs = k ++ r := by
  intro ps
  induction ps with
  | nil =>
    intro cs k r h
    simp only [matchLitCI, Option.some.injEq, Prod.mk.injEq] at h
    obtain ⟨h1, h2⟩ := h
    subst h1
    subst h2
    rfl
  | cons p ps ih =>
    intro cs k r h
    cases cs with
    | nil => simp [matchLitCI] at h
    | cons c cs' =>
      simp only [matchLitCI] at h
      split at h
      · split at h
        · rename_i k' r' hkr
          simp only [Option.some.injEq, Prod.mk.injEq] at h
          obtain ⟨h1, h2⟩ := h
          subst h1
          subst h2
          simpa using ih cs' k' r' hkr
        · simp at h
      · simp at h

theorem matchLitCI_fold :
    ∀ (ps cs k r : List Char), matchLitCI ps cs = some (k, r) →
      k.map foldCase = ps.map foldCase := by
  intro ps
  induction ps with
  | nil =>
    intro cs k r h
    simp only [matchLitCI, Option.some.injEq, Prod.mk.injEq] at h
    obtain ⟨h1, _⟩ := h
    subst h1
    rfl
  | cons p ps ih =>
    intro cs k r h
    cases cs with
    | nil => simp [matchLitCI] at h
    | cons c cs' =>
      simp only [matchLitCI] at h
      split at h
      · rename_i hci
        split at h
        · rename_i k' r' hkr
          simp only [Option.some.injEq, Prod.mk.injEq] at h
          obtain ⟨h1, _⟩ := h
          subst h1
          simp only [List.map_cons]
          rw [ciEq_fold hci, ih cs' k' r' hkr]
        · simp at h
      · simp at h

theorem matchLitCI_replay :
    ∀ (ps cs k r : List Char), matchLitCI ps cs = some (k, r) →
      ∀ w, matchLitCI ps (k ++ w) = some (k, w) := by
  intro ps
  induction ps with
  | nil =>
    intro cs k r h w
    simp only [matchLitCI, Option.some.injEq, Prod.mk.injEq] at h
    obtain ⟨h1, _⟩ := h
    subst h1
    rfl
  | cons p ps ih =>
    intro cs k r h w
    cases cs with
    | nil => simp [matchLitCI] at h
    | cons c cs' =>
      simp only [matchLitCI] at h
      split at h
      · rename_i hci
        split at h
        · rename_i k' r' hkr
          simp only [Option.some.injEq, Prod.mk.injEq] at h
          obtain ⟨h1, _⟩ := h
          subst h1
          simp only [List.cons_append, matchLitCI, hci, if_true, List.append_eq]
          rw [ih cs' k' r' hkr w]
        · simp at h
      · simp at h

/-- The key of `(?i)(api[_-]?key)`: `api`, a greedy optional `_`/`-` (with
the regex fallback of retrying without the dash), then `key`. -/
def kmApi (cs : List Char) : Option (List Char × List Char) :=
  match matchLitCI "api".data cs with
  | none => none
  | some (k1, r1) =>
    match r1 with
    | c :: r2 =>
      if c = '_' || c = '-' then
        match matchLitCI "key".data r2 with
        | some (k2, r3) => some (k1 ++ c :: k2, r3)
        | none =>
          match matchLitCI "key".data r1 with
          | some (k2, r3) => some (k1 ++ k2, r3)
          | none => none
      else
        match matchLitCI "key".data r1 with
        | some (k2, r3) => some (k1 ++ k2, r3)
        | none => none
    | [] => none

/-- The key of `(?i)(secret)`. -/
def kmSecret (cs : List Char) : Option (List Char × List Char) :=
  matchLitCI "secret".data cs

/-- The key of `(?i)(token)`. -/
def kmToken (cs : List Char) : Option (List Char × List Char) :=
  matchLitCI "token".data cs

/-- The case-folded skeletons of all scrub keys. -/
def scrubSkel (l : List Char) : Prop :=
  l = "apikey".data ∨ l = "api_key".data ∨ l = "api-key".data ∨
  l = "secret".data ∨ l = "token".data

/-- The facts about a keyword matcher used by the idempotence proofs. -/
structure GoodKM (km : KMFun) : Prop where
  verbatim : ∀ cs k r, km cs = some (k, r) → cs = k ++ r
  shape : ∀ cs k r, km cs = some (k, r) → scrubSkel (k.map foldCase)
  replay : ∀ cs k r, km cs = some (k, r) → ∀ w, km (k ++ w) = some (k, w)

theorem kmApi_elim {cs k r : List Char} (h : kmApi cs = some (k, r)) :
    (∃ k1 c k2, (c = '_' ∨ c = '-') ∧ k = k1 ++ c :: k2 ∧
      matchLitCI "api".data cs = some (k1, c :: (k2 ++ r)) ∧
      matchLitCI "key".data (k2 ++ r) = some (k2, r)) ∨
    (∃ k1 k2, k = k1 ++ k2 ∧
      matchLitCI "api".data cs = some (k1, k2 ++ r) ∧
      matchLitCI "key".data (k2 ++ r) = some (k2, r)) := by
  unfold kmApi at h
  split at h
  · simp at h
  · rename_i k1 r1 hapi
    split at h
    · rename_i c r2
      split at h
      · rename_i hdash
        split at h
        · rename_i k2 r3 hkey
          simp only [Option.some.injEq, Prod.mk.injEq] at h
          obtain ⟨hk, hr⟩ := h
          subst hk
          subst hr
          left
          have hv := matchLitCI_verbatim _ _ _ _ hkey
          refine ⟨k1, c, k2, ?_, rfl, ?_, ?_⟩
          · simpa using hdash
          · rw [hv] at hapi
            exact hapi
          · exact matchLitCI_replay _ _ _ _ hkey _
        · rename_i hkeyfail
          split at h
          · rename_i k2 r3 hkey2
            exfalso
            simp only [Bool.or_eq_true, decide_eq_true_eq] at hdash
            rcases hdash with rfl | rfl <;> simp [matchLitCI, ciEq] at hkey2
          · simp at h
      · rename_i hndash
        split at h
        · rename_i k2 r3 hkey
          simp only [Option.some.injEq, Prod.mk.injEq] at h
          obtain ⟨hk, hr⟩ := h
          subst hk
          subst hr
          right
          have hv := matchLitCI_verbatim _ _ _ _ hkey
          refine ⟨k1, k2, rfl, ?_, ?_⟩
          · rw [hv] at hapi
            exact hapi
          · exact matchLitCI_replay _ _ _ _ hkey _
        · simp at h
    · simp at h

theorem goodKM_kmApi : GoodKM kmApi := by
  refine ⟨?_, ?_, ?_⟩
  · intro cs k r h
    rcases kmApi_elim h with ⟨k1, c, k2, _, hk, hapi, _⟩ | ⟨k1, k2, hk, hapi, _⟩
    · subst hk
      rw [matchLitCI_verbatim _ _ _ _ hapi]
      simp
    · subst hk
      rw [matchLitCI_verbatim _ _ _ _ hapi]
      simp
  · intro cs k r h
    rcases kmApi_elim h with ⟨k1, c, k2, hd, hk, hapi, hkey⟩ | ⟨k1, k2, hk, hapi, hkey⟩
    · have f1 := matchLitCI_fold _ _ _ _ hapi
      have f2 := matchLitCI_fold _ _ _ _ hkey
      subst hk
      rcases hd with rfl | rfl
      · right
        left
        simp only [List.map_append, List.map_cons, f1, f2]
        rfl
      · right
        right
        left
        simp only [List.map_append, List.map_cons, f1, f2]
        rfl
    · have f1 := matchLitCI_fold _ _ _ _ hapi
      have f2 := matchLitCI_fold _ _ _ _ hkey
      subst hk
      left
      simp only [List.map_append, f1, f2]
      rfl
  · intro cs k r h w
    rcases kmApi_elim h with ⟨k1, c, k2, hd, hk, hapi, hkey⟩ | ⟨k1, k2, hk, hapi, hkey⟩
    · subst hk
      have hr1 := matchLitCI_replay _ _ _ _ hapi (c :: (k2 ++ w))
      have hr2 := matchLitCI_replay _ _ _ _ hkey w
      have hass : (k1 ++ c :: k2) ++ w = k1 ++ (c :: (k2 ++ w)) := by simp
      have hd' : (decide (c = '_') || decide (c = '-')) = true := by
        rcases hd with rfl | rfl <;> rfl
      unfold kmApi
      rw [hass, hr1]
      simp only [hd', if_true, hr2]
    · subst hk
      have f2 := matchLitCI_fold _ _ _ _ hkey
      obtain ⟨kc, k2', rfl⟩ : ∃ kc k2', k2 = kc :: k2' := by
        cases k2 with
        | nil => exact absurd f2 (by decide)
        | cons a b => exact ⟨a, b, rfl⟩
      have hr1 := matchLitCI_replay _ _ _ _ hapi (kc :: (k2' ++ w))
      have hr2 : matchLitCI "key".data (kc :: (k2' ++ w)) = some (kc :: k2', w) := by
        have := matchLitCI_replay _ _ _ _ hkey w
        simpa using this
      have hkc : foldCase kc = 'k' := by
        have hkdata : ("key".data : List Char) = ['k', 'e', 'y'] := rfl
        rw [hkdata] at f2
        simp only [List.map_cons, List.map_nil, List.cons.injEq] at f2
        exact f2.1.trans (by decide)
      have hkcd : (decide (kc = '_') || decide (kc = '-')) = false := by
        by_cases h1 : kc = '_'
        · subst h1
          exact absurd hkc (by decide)
        · by_cases h2 : kc = '-'
          · subst h2
            exact absurd hkc (by decide)
          · simp [h1, h2]
      have hass : (k1 ++ kc :: k2') ++ w = k1 ++ (kc :: (k2' ++ w)) := by simp
      unfold kmApi
      rw [hass, hr1]
      simp only [hkcd, Bool.false_eq_true, if_false, hr2]

theorem goodKM_kmSecret : GoodKM kmSecret := by
  refine ⟨?_, ?_, ?_⟩
  · intro cs k r h
    exact matchLitCI_verbatim _ _ _ _ h
  · intro cs k r h
    right
    right
    right
    left
    rw [matchLitCI_fold _ _ _ _ h]
    rfl
  · intro cs k r h w
    exact matchLitCI_replay _ _ _ _ h w

theorem goodKM_kmToken : GoodKM kmToken := by
  refine ⟨?_, ?_, ?_⟩
  · intro cs k r h
    exact matchLitCI_verbatim _ _ _ _ h
  · intro cs k r h
    right
    right
    right
    right
    rw [matchLitCI_fold _ _ _ _ h]
    rfl
  · intro cs k r h w
    exact matchLitCI_replay _ _ _ _ h w

theorem GoodKM.key_ne_nil {km : KMFun} (G : GoodKM km) {cs k r : List Char}
    (h : km cs = some (k, r)) : k ≠ [] := by
  intro hk
  subst hk
  rcases G.shape _ _ _ h with h' | h' | h' | h' | h' <;> exact absurd h' (by decide)

theorem GoodKM.keyChars {km : KMFun} (G : GoodKM km) {cs k r : List Char}
    (h : km cs = some (k, r)) : ∀ c ∈ k, isKeyChar c = true := by
  intro c hc
  have hf : foldCase c ∈ k.map foldCase := List.mem_map_of_mem _ hc
  rw [← isKeyChar_foldCase]
  rcases G.shape _ _ _ h with h' | h' | h' | h' | h'
  · rw [h'] at hf
    exact (by decide : ∀ x ∈ "apikey".data, isKeyChar x = true) _ hf
  · rw [h'] at hf
    exact (by decide : ∀ x ∈ "api_key".data, isKeyChar x = true) _ hf
  · rw [h'] at hf
    exact (by decide : ∀ x ∈ "api-key".data, isKeyChar x = true) _ hf
  · rw [h'] at hf
    exact (by decide : ∀ x ∈ "secret".data, isKeyChar x = true) _ hf
  · rw [h'] at hf
    exact (by decide : ∀ x ∈ "token".data, isKeyChar x = true) _ hf

theorem GoodKM.key_getLast {km : KMFun} (G : GoodKM km) {cs k r : List Char}
    (h : km cs = some (k, r)) :
    ∃ cl, k.getLast? = some cl ∧ isKeyChar cl = true := by
  have hne := G.key_ne_nil h
  refine ⟨k.getLast hne, List.getLast?_eq_getLast k hne, ?_⟩
  exact G.keyChars h _ (List.getLast_mem hne)

/-- `\s*[:=]\s*\S+` after a matched key; returns the remainder after the
whole match. -/
def matchScrubTail (r1 : List Char) : Option (List Char) :=
  match r1.dropWhile isPySpace with
  | c :: r3 =>
    if c = ':' || c = '=' then
      if ((r3.dropWhile isPySpace).takeWhile (fun c => !isPySpace c)).isEmpty then none
      else some ((r3.dropWhile isPySpace).drop
        ((r3.dropWhile isPySpace).takeWhile (fun c => !isPySpace c)).length)
    else none
  | [] => none

/-- One attempted match of a scrub pattern at the current position:
the key (captured `\1`), then `\s*[:=]\s*\S+`. -/
def tryScrub (km : KMFun) (cs : List Char) : Option (List Char × List Char) :=
  match km cs with
  | none => none
  | some (key, r1) =>
    match matchScrubTail r1 with
    | none => none
    | some rest => some (key, rest)

/-- What `r"\1: [REDACTED]"` appends after the preserved key. -/
def redactTail : List Char := ": [REDACTED]".data

/-- `re.sub(pat, r"\1: [REDACTED]", txt)`: scan left to right; at each
position, on a match emit the key and the canonical suffix and resume
after the match, otherwise emit one character.  Fuelled by the remaining
length (each step consumes at least one character). -/
def subRunF (km : KMFun) : Nat → List Char → List Char
  | 0, l => l
  | _ + 1, [] => []
  | fuel + 1, c :: cs =>
    match tryScrub km (c :: cs) with
    | some (key, rest) => key ++ redactTail ++ subRunF km fuel rest
    | none => c :: subRunF km fuel cs

def subRun (km : KMFun) (l : List Char) : List Char := subRunF km l.length l

/-- `secret_scrub(txt)`: the three substitutions applied in the order of
`SCRUB_PATTERNS` (api-key, then secret, then token). -/
def secret_scrub (txt : String) : String :=
  String.mk (subRun kmToken (subRun kmSecret (subRun kmApi txt.data)))

/-- The text after a replacement starts with whitespace or is empty (the
greedy `\S+` never stops in front of more non-whitespace). -/
def SpHead : List Char → Prop
  | [] => True
  | c :: _ => isPySpace c = true

theorem not_keyChar_of_space {c : Char} (h : isPySpace c = true) :
    isKeyChar c = false := by
  by_contra hk
  rw [Bool.not_eq_false] at hk
  rw [not_space_of_keyChar hk] at h
  exact Bool.false_ne_true h

theorem takeWhile_mem {p : Char → Bool} :
    ∀ (l : List Char), ∀ c ∈ l.takeWhile p, p c = true := by
  intro l
  induction l with
  | nil => intro c hc; simp at hc
  | cons a l ih =>
    intro c hc
    rw [List.takeWhile_cons] at hc
    split at hc
    · rename_i ha
      cases hc with
      | head => exact ha
      | tail _ h => exact ih c h
    · simp at hc

theorem drop_takeWhile_eq_dropWhile (p : Char → Bool) :
    ∀ (l : List Char), l.drop (l.takeWhile p).length = l.dropWhile p := by
  intro l
  induction l with
  | nil => rfl
  | cons a l ih =>
    rw [List.takeWhile_cons, List.dropWhile_cons]
    split
    · simpa using ih
    · rfl

theorem SpHead_dropWhile (l : List Char) :
    SpHead (l.dropWhile (fun c => !isPySpace c)) := by
  induction l with
  | nil => exact trivial
  | cons c cs ih =>
    rw [List.dropWhile_cons]
    split
    · exact ih
    · rename_i hc
      simp only [Bool.not_eq_true, Bool.not_eq_false] at hc
      simpa [SpHead] using hc

theorem matchScrubTail_decomp {r1 rest : List Char}
    (h : matchScrubTail r1 = some rest) :
    ∃ sp1 d sp2 v, r1 = sp1 ++ d :: (sp2 ++ (v ++ rest)) ∧
      (∀ c ∈ sp1, isPySpace c = true) ∧ (d = ':' ∨ d = '=') ∧
      (∀ c ∈ sp2, isPySpace c = true) ∧ v ≠ [] ∧
      (∀ c ∈ v, isPySpace c = false) ∧ SpHead rest := by
  unfold matchScrubTail at h
  split at h
  · rename_i d r3 hdw
    split at h
    · rename_i hd
      split at h
      · simp at h
      · rename_i hv
        simp only [Option.some.injEq] at h
        refine ⟨r1.takeWhile isPySpace, d, r3.takeWhile isPySpace,
          (r3.dropWhile isPySpace).takeWhile (fun c => !isPySpace c), ?_, ?_, ?_, ?_, ?_, ?_, ?_⟩
        · conv_lhs => rw [← List.takeWhile_append_dropWhile (p := isPySpace) (l := r1)]
          rw [hdw]
          congr 1
          congr 1
          conv_lhs => rw [← List.takeWhile_append_dropWhile (p := isPySpace) (l := r3)]
          congr 1
          conv_lhs => rw [← List.takeWhile_append_dropWhile
            (p := fun c => !isPySpace c) (l := r3.dropWhile isPySpace)]
          congr 1
          rw [← h, drop_takeWhile_eq_dropWhile]
        · exact takeWhile_mem r1
        · simpa using hd
        · exact takeWhile_mem r3
        · simpa using hv
        · intro c hc
          have := takeWhile_mem _ c hc
          simpa using this
        · rw [← h, drop_takeWhile_eq_dropWhile]
          exact SpHead_dropWhile _
    · simp at h
  · simp at h

theorem tryScrub_decomp {km : KMFun} (G : GoodKM km) {cs key rest : List Char}
    (h : tryScrub km cs = some (key, rest)) :
    ∃ b mid', cs = key ++ b :: (mid' ++ rest) ∧ isKeyChar b = false ∧ SpHead rest ∧
      km cs = some (key, b :: (mid' ++ rest)) := by
  unfold tryScrub at h
  split at h
  · simp at h
  · rename_i key0 r1 hkm
    split at h
    · simp at h
    · rename_i rest0 hmst
      simp only [Option.some.injEq, Prod.mk.injEq] at h
      obtain ⟨h1, h2⟩ := h
      subst h1
      subst h2
      obtain ⟨sp1, d, sp2, v, hr1, hsp1, hd, _, _, _, hsph⟩ := matchScrubTail_decomp hmst
      have hv := G.verbatim _ _ _ hkm
      cases sp1 with
      | nil =>
        refine ⟨d, sp2 ++ v, ?_, ?_, hsph, ?_⟩
        · rw [hv, hr1]
          simp
        · rcases hd with rfl | rfl <;> rfl
        · have hre : r1 = d :: ((sp2 ++ v) ++ rest0) := by
            rw [hr1]
            simp
          rw [← hre]
          exact hkm
      | cons s sp1' =>
        refine ⟨s, sp1' ++ d :: (sp2 ++ v), ?_, ?_, hsph, ?_⟩
        · rw [hv, hr1]
          simp
        · exact not_keyChar_of_space (hsp1 s (List.mem_cons_self _ _))
        · have hre : r1 = s :: ((sp1' ++ d :: (sp2 ++ v)) ++ rest0) := by
            rw [hr1]
            simp
          rw [← hre]
          exact hkm

theorem subRunF_nil (km : KMFun) : ∀ fuel, subRunF km fuel [] = [] := by
  intro fuel
  cases fuel with
  | zero => rfl
  | succ f => rfl

theorem tryScrub_consume {km : KMFun} (G : GoodKM km) {c : Char} {cs key rest : List Char}
    (h : tryScrub km (c :: cs) = some (key, rest)) : rest.length ≤ cs.length := by
  obtain ⟨b, mid', hcs, _, _, _⟩ := tryScrub_decomp G h
  have := congrArg List.length hcs
  simp only [List.length_cons, List.length_append] at this
  omega

theorem subRunF_irrel {km : KMFun} (G : GoodKM km) :
    ∀ (fuel fuel' : Nat) (l : List Char), l.length ≤ fuel → l.length ≤ fuel' →
      subRunF km fuel l = subRunF km fuel' l := by
  intro fuel
  induction fuel with
  | zero =>
    intro fuel' l h h'
    rw [Nat.le_zero] at h
    rw [List.length_eq_zero] at h
    subst h
    rw [subRunF_nil, subRunF_nil]
  | succ f ih =>
    intro fuel' l h h'
    cases l with
    | nil => rw [subRunF_nil, subRunF_nil]
    | cons c cs =>
      cases fuel' with
      | zero => simp at h'
      | succ f' =>
        simp only [List.length_cons] at h h'
        cases hts : tryScrub km (c :: cs) with
        | none =>
          have e1 : subRunF km (f + 1) (c :: cs) = c :: subRunF km f cs := by
            simp only [subRunF, hts]
          have e2 : subRunF km (f' + 1) (c :: cs) = c :: subRunF km f' cs := by
            simp only [subRunF, hts]
          rw [e1, e2, ih f' cs (by omega) (by omega)]
        | some kr =>
          obtain ⟨key, rest⟩ := kr
          have hc := tryScrub_consume G hts
          have e1 : subRunF km (f + 1) (c :: cs)
              = key ++ redactTail ++ subRunF km f rest := by
            simp only [subRunF, hts]
          have e2 : subRunF km (f' + 1) (c :: cs)
              = key ++ redactTail ++ subRunF km f' rest := by
            simp only [subRunF, hts]
          rw [e1, e2, ih f' rest (by omega) (by omega)]

theorem subRun_match {km : KMFun} (G : GoodKM km) {c : Char} {cs key rest : List Char}
    (h : tryScrub km (c :: cs) = some (key, rest)) :
    subRun km (c :: cs) = key ++ (redactTail ++ subRun km rest) := by
  unfold subRun
  have hc := tryScrub_consume G h
  simp only [List.length_cons, subRunF, h]
  rw [subRunF_irrel G cs.length rest.length rest hc le_rfl]
  simp

theorem subRun_skip {km : KMFun} {c : Char} {cs : List Char}
    (h : tryScrub km (c :: cs) = none) :
    subRun km (c :: cs) = c :: subRun km cs := by
  unfold subRun
  simp only [List.length_cons, subRunF, h]

theorem tryScrub_none_spaceHead {km : KMFun} (G : GoodKM km) {c : Char} {cs : List Char}
    (h : isPySpace c = true) : tryScrub km (c :: cs) = none := by
  cases hkm : km (c :: cs) with
  | none => simp [tryScrub, hkm]
  | some kr =>
    obtain ⟨k, r⟩ := kr
    exfalso
    have hv := G.verbatim _ _ _ hkm
    have hne := G.key_ne_nil hkm
    cases k with
    | nil => exact hne rfl
    | cons a k' =>
      simp only [List.cons_append] at hv
      have hac : c = a := by
        injection hv
      have hkc := G.keyChars hkm a (List.mem_cons_self _ _)
      rw [← hac] at hkc
      rw [not_space_of_keyChar hkc] at h
      exact Bool.false_ne_true h

theorem SpHead_subRun {km : KMFun} (G : GoodKM km) {z : List Char} (h : SpHead z) :
    SpHead (subRun km z) := by
  cases z with
  | nil => exact trivial
  | cons c cs =>
    rw [subRun_skip (tryScrub_none_spaceHead G h)]
    exact h

theorem takeWhile_spHead {z : List Char} (h : SpHead z) :
    z.takeWhile (fun c => !isPySpace c) = [] := by
  cases z with
  | nil => rfl
  | cons c z' =>
    simp only [SpHead] at h
    simp [List.takeWhile_cons, h]

theorem matchScrubTail_canonical {z : List Char} (h : SpHead z) :
    matchScrubTail (redactTail ++ z) = some z := by
  have htw := takeWhile_spHead h
  have hRT : redactTail ++ z
      = ':' :: ' ' :: '[' :: 'R' :: 'E' :: 'D' :: 'A' :: 'C' :: 'T' :: 'E' :: 'D' :: ']' :: z :=
    rfl
  rw [hRT]
  unfold matchScrubTail
  simp only [List.dropWhile_cons, List.takeWhile_cons, htw,
    (by decide : isPySpace ':' = false), (by decide : isPySpace ' ' = true),
    (by decide : isPySpace '[' = false), (by decide : isPySpace 'R' = false),
    (by decide : isPySpace 'E' = false), (by decide : isPySpace 'D' = false),
    (by decide : isPySpace 'A' = false), (by decide : isPySpace 'C' = false),
    (by decide : isPySpace 'T' = false), (by decide : isPySpace ']' = false),
    Bool.false_eq_true, if_false, if_true, Bool.not_false, Bool.not_true]
  simp

/-- The part of the text after a candidate key region: empty, or starting
with a character that cannot belong to a key. -/
def DeadHead : List Char → Prop
  | [] => True
  | c :: _ => isKeyChar c = false

theorem DeadHead_of_spHead {l : List Char} (h : SpHead l) : DeadHead l := by
  cases l with
  | nil => exact trivial
  | cons c cs => exact not_keyChar_of_space h

theorem isKeyChar_of_ciEq {c p : Char} (h : ciEq c p = true) :
    isKeyChar c = isKeyChar p := by
  rw [← isKeyChar_foldCase c, ciEq_fold h, isKeyChar_foldCase]

theorem matchLitCI_none_dead {p : Char} (ps : List Char) (hp : isKeyChar p = true)
    {X : List Char} (hX : DeadHead X) : matchLitCI (p :: ps) X = none := by
  cases X with
  | nil => rfl
  | cons c X0 =>
    have hX2 : isKeyChar c = false := hX
    have hcp : ciEq c p = false := by
      by_contra hc
      rw [Bool.not_eq_false] at hc
      have h1 : isKeyChar c = true := by rw [isKeyChar_of_ciEq hc]; exact hp
      rw [h1] at hX2
      exact absurd hX2 (by decide)
    simp [matchLitCI, hcp]

/-- A pattern scan only reads characters up to its match (or first
mismatch), so it cannot distinguish two continuations that both start
outside the key alphabet. -/
theorem matchLitCI_stable :
    ∀ (sk : List Char), (∀ p ∈ sk, isKeyChar p = true) →
    ∀ (u X X' : List Char), DeadHead X → DeadHead X' →
      (matchLitCI sk (u ++ X) = none ∧ matchLitCI sk (u ++ X') = none) ∨
      ∃ k w, k ++ w = u ∧ matchLitCI sk (u ++ X) = some (k, w ++ X) ∧
        matchLitCI sk (u ++ X') = some (k, w ++ X') := by
  intro sk
  induction sk with
  | nil =>
    intro _ u X X' _ _
    right
    exact ⟨[], u, rfl, rfl, rfl⟩
  | cons p ps ih =>
    intro hsk u X X' hX hX'
    have hp : isKeyChar p = true := hsk p (List.mem_cons_self _ _)
    cases u with
    | nil =>
      left
      exact ⟨matchLitCI_none_dead ps hp hX, matchLitCI_none_dead ps hp hX'⟩
    | cons c u' =>
      cases hcp : ciEq c p with
      | false =>
        left
        constructor <;> simp [matchLitCI, hcp]
      | true =>
        rcases ih (fun q hq => hsk q (List.mem_cons_of_mem _ hq)) u' X X' hX hX' with
          ⟨h1, h2⟩ | ⟨k, w, hkw, h1, h2⟩
        · left
          constructor <;> simp [matchLitCI, hcp, h1, h2]
        · right
          refine ⟨c :: k, w, by rw [List.cons_append, hkw], ?_, ?_⟩
          · show matchLitCI (p :: ps) ((c :: u') ++ X) = some (c :: k, w ++ X)
            simp [matchLitCI, hcp, h1]
          · show matchLitCI (p :: ps) ((c :: u') ++ X') = some (c :: k, w ++ X')
            simp [matchLitCI, hcp, h2]

/-- A keyword matcher that cannot see past the first non-key character
after the portion of the key it consumed. -/
def StableKM (km : KMFun) : Prop :=
  ∀ u X X', DeadHead X → DeadHead X' →
    (km (u ++ X) = none ∧ km (u ++ X') = none) ∨
    ∃ k w, k ++ w = u ∧ km (u ++ X) = some (k, w ++ X) ∧ km (u ++ X') = some (k, w ++ X')

theorem kmSecret_stable : StableKM kmSecret := by
  intro u X X' hX hX'
  exact matchLitCI_stable "secret".data (by decide) u X X' hX hX'

theorem kmToken_stable : StableKM kmToken := by
  intro u X X' hX hX'
  exact matchLitCI_stable "token".data (by decide) u X X' hX hX'

theorem kmApi_dead_tail {Y k1 : List Char} {X : List Char}
    (h : matchLitCI "api".data Y = some (k1, X)) (hX : DeadHead X) : kmApi Y = none := by
  unfold kmApi
  rw [h]
  cases X with
  | nil => rfl
  | cons c X0 =>
    have hc : isKeyChar c = false := hX
    have h1 : c ≠ '_' := by rintro rfl; exact absurd hc (by decide)
    have h2 : c ≠ '-' := by rintro rfl; exact absurd hc (by decide)
    have hkey : matchLitCI "key".data (c :: X0) = none :=
      matchLitCI_none_dead "ey".data (by decide) hX
    simp [h1, h2, hkey]

theorem matchLitCI_cons_false {p : Char} {ps : List Char} {e : Char} {Z : List Char}
    (he : ciEq e p = false) : matchLitCI (p :: ps) (e :: Z) = none := by
  simp only [matchLitCI, he, Bool.false_eq_true, if_false]

theorem kmApi_none_of_api_none {cs : List Char}
    (h : matchLitCI "api".data cs = none) : kmApi cs = none := by
  simp only [kmApi, h]

theorem kmApi_eq_dash {cs k1 : List Char} {e : Char} {r2 k2 r3 : List Char}
    (h : matchLitCI "api".data cs = some (k1, e :: r2))
    (hd : (decide (e = '_') || decide (e = '-')) = true)
    (hk : matchLitCI "key".data r2 = some (k2, r3)) :
    kmApi cs = some (k1 ++ e :: k2, r3) := by
  simp only [kmApi, h, hd, if_true, hk]

theorem kmApi_none_dash {cs k1 : List Char} {e : Char} {r2 : List Char}
    (h : matchLitCI "api".data cs = some (k1, e :: r2))
    (hd : (decide (e = '_') || decide (e = '-')) = true)
    (hk : matchLitCI "key".data r2 = none)
    (hfb : matchLitCI "key".data (e :: r2) = none) :
    kmApi cs = none := by
  simp only [kmApi, h, hd, if_true, hk, hfb]

theorem kmApi_eq_nodash {cs k1 : List Char} {e : Char} {r2 k2 r3 : List Char}
    (h : matchLitCI "api".data cs = some (k1, e :: r2))
    (hd : (decide (e = '_') || decide (e = '-')) = false)
    (hfb : matchLitCI "key".data (e :: r2) = some (k2, r3)) :
    kmApi cs = some (k1 ++ k2, r3) := by
  simp only [kmApi, h, hd, Bool.false_eq_true, if_false, hfb]

theorem kmApi_none_nodash {cs k1 : List Char} {e : Char} {r2 : List Char}
    (h : matchLitCI "api".data cs = some (k1, e :: r2))
    (hd : (decide (e = '_') || decide (e = '-')) = false)
    (hfb : matchLitCI "key".data (e :: r2) = none) :
    kmApi cs = none := by
  simp only [kmApi, h, hd, Bool.false_eq_true, if_false, hfb]

theorem kmApi_stable : StableKM kmApi := by
  intro u X X' hX hX'
  rcases matchLitCI_stable "api".data (by decide) u X X' hX hX' with
    ⟨h1, h2⟩ | ⟨k1, w1, hkw, h1, h2⟩
  · exact Or.inl ⟨kmApi_none_of_api_none h1, kmApi_none_of_api_none h2⟩
  · cases w1 with
    | nil =>
      exact Or.inl ⟨kmApi_dead_tail h1 hX, kmApi_dead_tail h2 hX'⟩
    | cons e w1' =>
      rw [List.cons_append] at h1 h2
      cases hdash : (decide (e = '_') || decide (e = '-')) with
      | true =>
        have he : ciEq e 'k' = false := by
          rcases (by simpa using hdash : e = '_' ∨ e = '-') with rfl | rfl <;> decide
        rcases matchLitCI_stable "key".data (by decide) w1' X X' hX hX' with
          ⟨g1, g2⟩ | ⟨k2, w2, hk2, g1, g2⟩
        · exact Or.inl ⟨kmApi_none_dash h1 hdash g1 (matchLitCI_cons_false he),
            kmApi_none_dash h2 hdash g2 (matchLitCI_cons_false he)⟩
        · right
          refine ⟨k1 ++ e :: k2, w2, ?_, kmApi_eq_dash h1 hdash g1,
            kmApi_eq_dash h2 hdash g2⟩
          subst hkw
          rw [← hk2]
          simp
      | false =>
        rcases matchLitCI_stable "key".data (by decide) (e :: w1') X X' hX hX' with
          ⟨g1, g2⟩ | ⟨k2, w2, hk2, g1, g2⟩
        · rw [List.cons_append] at g1 g2
          exact Or.inl ⟨kmApi_none_nodash h1 hdash g1, kmApi_none_nodash h2 hdash g2⟩
        · rw [List.cons_append] at g1 g2
          right
          refine ⟨k1 ++ k2, w2, ?_, kmApi_eq_nodash h1 hdash g1,
            kmApi_eq_nodash h2 hdash g2⟩
          subst hkw
          rw [List.append_assoc, hk2]

/-- The case-folded scrub keys as a list, for finite checks. -/
def skelList : List (List Char) :=
  ["apikey".data, "api_key".data, "api-key".data, "secret".data, "token".data]

theorem scrubSkel_mem {s : List Char} (h : scrubSkel s) : s ∈ skelList := by
  rcases h with rfl | rfl | rfl | rfl | rfl <;> simp [skelList]

theorem skelList_len : ∀ s ∈ skelList, s.length < 8 := by decide

theorem skel_prefix_drop : ∀ s₁ ∈ skelList, ∀ s₂ ∈ skelList, ∀ j, j < 8 → 1 ≤ j →
    s₂.isPrefixOf (s₁.drop j) = false := by decide

theorem skel_prefix_lt : ∀ s₁ ∈ skelList, ∀ s₂ ∈ skelList, s₂.length < s₁.length →
    s₂.isPrefixOf s₁ = false := by decide

theorem skel_rt_scan : ∀ s ∈ skelList, ∀ j, j < 13 →
    s.isPrefixOf ((redactTail.map foldCase).drop j) = false := by decide

/-- No scrub key occurs inside another one at a positive offset. -/
theorem skel_not_infix {s₁ s₂ : List Char} (h₁ : scrubSkel s₁) (h₂ : scrubSkel s₂)
    {p q : List Char} (hp : p ≠ []) (h : p ++ (s₂ ++ q) = s₁) : False := by
  have hm₁ := scrubSkel_mem h₁
  have hm₂ := scrubSkel_mem h₂
  have hpre : s₂.isPrefixOf (s₁.drop p.length) = true := by
    rw [← h, List.drop_left, List.isPrefixOf_iff_prefix]
    exact ⟨q, rfl⟩
  have hlen := congrArg List.length h
  simp only [List.length_append] at hlen
  have hp1 : 1 ≤ p.length := List.length_pos.mpr hp
  have h8 : s₁.length < 8 := skelList_len s₁ hm₁
  have hc := skel_prefix_drop s₁ hm₁ s₂ hm₂ p.length (by omega) hp1
  rw [hpre] at hc
  exact absurd hc (by decide)

/-- No scrub key is a proper prefix of another one. -/
theorem skel_not_proper_front {s₁ s₂ : List Char} (h₁ : scrubSkel s₁) (h₂ : scrubSkel s₂)
    {w : List Char} (hw : w ≠ []) (h : s₂ ++ w = s₁) : False := by
  have hm₁ := scrubSkel_mem h₁
  have hm₂ := scrubSkel_mem h₂
  have hpre : s₂.isPrefixOf s₁ = true := by
    rw [ List.isPrefixOf_iff_prefix]
    exact ⟨w, h⟩
  have hlen := congrArg List.length h
  simp only [List.length_append] at hlen
  have hw1 : 1 ≤ w.length := List.length_pos.mpr hw
  have hc := skel_prefix_lt s₁ hm₁ s₂ hm₂ (by omega)
  rw [hpre] at hc
  exact absurd hc (by decide)

/-- No scrub key starts anywhere inside the replacement tail. -/
theorem skel_not_inside_rt {s : List Char} (hs : scrubSkel s) {j : Nat} (hj : j < 13)
    {w : List Char} (h : s ++ w = (redactTail.map foldCase).drop j) : False := by
  have hm := scrubSkel_mem hs
  have hpre : s.isPrefixOf ((redactTail.map foldCase).drop j) = true := by
    rw [ List.isPrefixOf_iff_prefix]
    exact ⟨w, h⟩
  have hc := skel_rt_scan s hm j hj
  rw [hpre] at hc
  exact absurd hc (by decide)

theorem dropWhile_append_ne {p : Char → Bool} :
    ∀ (l₁ l₂ : List Char), l₁.dropWhile p ≠ [] →
      (l₁ ++ l₂).dropWhile p = l₁.dropWhile p ++ l₂ := by
  intro l₁
  induction l₁ with
  | nil => intro l₂ h; exact absurd rfl h
  | cons a l ih =>
    intro l₂ h
    cases hpa : p a with
    | true =>
      have e1 : (a :: l).dropWhile p = l.dropWhile p := by simp [List.dropWhile_cons, hpa]
      rw [e1] at h
      have e2 : (a :: (l ++ l₂)).dropWhile p = (l ++ l₂).dropWhile p := by
        simp [List.dropWhile_cons, hpa]
      rw [List.cons_append, e2, ih l₂ h, e1]
    | false =>
      have e1 : (a :: l).dropWhile p = a :: l := by simp [List.dropWhile_cons, hpa]
      have e2 : (a :: (l ++ l₂)).dropWhile p = a :: (l ++ l₂) := by
        simp [List.dropWhile_cons, hpa]
      rw [List.cons_append, e2, e1, List.cons_append]

theorem dropWhile_head_false {p : Char → Bool} :
    ∀ {l : List Char} {e : Char} {l' : List Char},
      l.dropWhile p = e :: l' → p e = false := by
  intro l
  induction l with
  | nil => intro e l' h; simp at h
  | cons a l ih =>
    intro e l' h
    rw [List.dropWhile_cons] at h
    split at h
    · exact ih h
    · rename_i hpa
      injection h with h1 _
      subst h1
      simpa using hpa

theorem mem_of_getLast?_eq {l : List Char} {c : Char} (h : l.getLast? = some c) :
    c ∈ l := by
  obtain ⟨h', hc⟩ := List.mem_getLast?_eq_getLast (l := l) (x := c) h
  rw [hc]
  exact List.getLast_mem h'

/-- If the text before the separator region ends in a key character, then
whether `\s*[:=]\s*\S+` matches does not depend on anything after that
region's end: the first non-blank is inside it, and if it is `:`/`=` a
non-blank follows within it. -/
theorem matchScrubTail_stable {u₁ : List Char} {cl : Char}
    (hlast : u₁.getLast? = some cl) (hcl : isKeyChar cl = true)
    {b : Char} {v : List Char} (hnone : matchScrubTail (u₁ ++ b :: v) = none)
    {b' : Char} {v' : List Char} : matchScrubTail (u₁ ++ b' :: v') = none := by
  have hclsp : isPySpace cl = false := not_space_of_keyChar hcl
  have hclmem : cl ∈ u₁ := mem_of_getLast?_eq hlast
  have hDne : u₁.dropWhile isPySpace ≠ [] := by
    rw [ne_eq, List.dropWhile_eq_nil_iff]
    push_neg
    exact ⟨cl, hclmem, by simp [hclsp]⟩
  obtain ⟨d, D', hD⟩ : ∃ d D', u₁.dropWhile isPySpace = d :: D' := by
    cases hD : u₁.dropWhile isPySpace with
    | nil => exact absurd hD hDne
    | cons a l => exact ⟨a, l, rfl⟩
  have hlastD : (d :: D').getLast? = some cl := by
    rw [← hD]
    calc (u₁.dropWhile isPySpace).getLast?
        = (u₁.takeWhile isPySpace ++ u₁.dropWhile isPySpace).getLast? :=
          (List.getLast?_append_of_ne_nil _ hDne).symm
      _ = u₁.getLast? := by rw [List.takeWhile_append_dropWhile]
      _ = some cl := hlast
  have hdw1 : (u₁ ++ b :: v).dropWhile isPySpace = d :: (D' ++ b :: v) := by
    rw [dropWhile_append_ne u₁ (b :: v) hDne, hD, List.cons_append]
  have hdw2 : (u₁ ++ b' :: v').dropWhile isPySpace = d :: (D' ++ b' :: v') := by
    rw [dropWhile_append_ne u₁ (b' :: v') hDne, hD, List.cons_append]
  cases hcond : (decide (d = ':') || decide (d = '=')) with
  | false =>
    simp only [matchScrubTail, hdw2, hcond, Bool.false_eq_true, if_false]
  | true =>
    exfalso
    cases D' with
    | nil =>
      have hdcl : d = cl := by simpa using hlastD
      subst hdcl
      rcases (by simpa using hcond : d = ':' ∨ d = '=') with rfl | rfl <;>
        exact absurd hcl (by decide)
    | cons d2 D'' =>
      have hlastD' : (d2 :: D'').getLast? = some cl := by
        rw [← List.getLast?_cons_cons]
        exact hlastD
      have hclmem' : cl ∈ d2 :: D'' := mem_of_getLast?_eq hlastD'
      have hEne : (d2 :: D'').dropWhile isPySpace ≠ [] := by
        rw [ne_eq, List.dropWhile_eq_nil_iff]
        push_neg
        exact ⟨cl, hclmem', by simp [hclsp]⟩
      obtain ⟨e, E', hE⟩ : ∃ e E', (d2 :: D'').dropWhile isPySpace = e :: E' := by
        cases hE : (d2 :: D'').dropWhile isPySpace with
        | nil => exact absurd hE hEne
        | cons a l => exact ⟨a, l, rfl⟩
      have he : isPySpace e = false := dropWhile_head_false hE
      have hdwE : ((d2 :: D'') ++ b :: v).dropWhile isPySpace = e :: (E' ++ b :: v) := by
        rw [dropWhile_append_ne _ _ hEne, hE, List.cons_append]
      simp only [matchScrubTail, hdw1, hcond, if_true, hdwE, List.takeWhile_cons, he,
        Bool.not_false, if_true, List.isEmpty_cons, Bool.false_eq_true, if_false] at hnone
      simp at hnone

theorem tryScrub_none_of_km_none {km : KMFun} {cs : List Char} (h : km cs = none) :
    tryScrub km cs = none := by
  simp only [tryScrub, h]

theorem tryScrub_none_elim {km : KMFun} {cs k r : List Char}
    (hn : tryScrub km cs = none) (hk : km cs = some (k, r)) :
    matchScrubTail r = none := by
  cases hm : matchScrubTail r with
  | none => rfl
  | some rest =>
    simp only [tryScrub, hk, hm] at hn
    exact Option.noConfusion hn

theorem tryScrub_none_intro {km : KMFun} {cs k r : List Char}
    (hk : km cs = some (k, r)) (hm : matchScrubTail r = none) :
    tryScrub km cs = none := by
  simp only [tryScrub, hk, hm]

theorem tryScrub_some_elim {km : KMFun} {cs key rest : List Char}
    (h : tryScrub km cs = some (key, rest)) : ∃ r1, km cs = some (key, r1) := by
  unfold tryScrub at h
  split at h
  · exact Option.noConfusion h
  · rename_i k0 r1 hk
    split at h
    · exact Option.noConfusion h
    · rename_i rest0 hm
      simp only [Option.some.injEq, Prod.mk.injEq] at h
      obtain ⟨h1, _⟩ := h
      subst h1
      exact ⟨r1, hk⟩

theorem tryScrub_nil {km : KMFun} (G : GoodKM km) : tryScrub km [] = none := by
  cases hk : km [] with
  | none => exact tryScrub_none_of_km_none hk
  | some kr =>
    obtain ⟨k, r⟩ := kr
    have hv := G.verbatim _ _ _ hk
    have hne := G.key_ne_nil hk
    cases k with
    | nil => exact absurd rfl hne
    | cons a k' => exact absurd hv (by simp)

/-- A replaced occurrence is again a full match of the same pattern. -/
theorem tryScrub_canonical {km : KMFun} (G : GoodKM km) {cs0 key r0 : List Char}
    (hk : km cs0 = some (key, r0)) {z : List Char} (hz : SpHead z) :
    tryScrub km (key ++ (redactTail ++ z)) = some (key, z) := by
  have hrep := G.replay _ _ _ hk (redactTail ++ z)
  simp only [tryScrub, hrep, matchScrubTail_canonical hz]

theorem kmApi_fold {cs k r : List Char} (h : kmApi cs = some (k, r)) :
    k.map foldCase = "apikey".data ∨ k.map foldCase = "api_key".data ∨
      k.map foldCase = "api-key".data := by
  rcases kmApi_elim h with ⟨k1, c, k2, hd, hk, hapi, hkey⟩ | ⟨k1, k2, hk, hapi, hkey⟩
  · have f1 := matchLitCI_fold _ _ _ _ hapi
    have f2 := matchLitCI_fold _ _ _ _ hkey
    subst hk
    rcases hd with rfl | rfl
    · right
      left
      simp only [List.map_append, List.map_cons, f1, f2]
      rfl
    · right
      right
      simp only [List.map_append, List.map_cons, f1, f2]
      rfl
  · have f1 := matchLitCI_fold _ _ _ _ hapi
    have f2 := matchLitCI_fold _ _ _ _ hkey
    subst hk
    left
    simp only [List.map_append, f1, f2]
    rfl

theorem kmSecret_fold {cs k r : List Char} (h : kmSecret cs = some (k, r)) :
    k.map foldCase = "secret".data := by
  rw [matchLitCI_fold _ _ _ _ h]
  rfl

theorem kmToken_fold {cs k r : List Char} (h : kmToken cs = some (k, r)) :
    k.map foldCase = "token".data := by
  rw [matchLitCI_fold _ _ _ _ h]
  rfl

/-- Two matchers that never produce the same key text. -/
def KMDisj (km km' : KMFun) : Prop :=
  ∀ k cs r cs' r', km cs = some (k, r) → km' cs' = some (k, r') → False

theorem kmDisj_api_secret : KMDisj kmApi kmSecret := by
  intro k cs r cs' r' h h'
  have h2 := kmSecret_fold h'
  rcases kmApi_fold h with h1 | h1 | h1 <;> rw [h1] at h2 <;> exact absurd h2 (by decide)

theorem kmDisj_secret_api : KMDisj kmSecret kmApi := by
  intro k cs r cs' r' h h'
  have h1 := kmSecret_fold h
  rcases kmApi_fold h' with h2 | h2 | h2 <;> rw [h1] at h2 <;> exact absurd h2 (by decide)

theorem kmDisj_api_token : KMDisj kmApi kmToken := by
  intro k cs r cs' r' h h'
  have h2 := kmToken_fold h'
  rcases kmApi_fold h with h1 | h1 | h1 <;> rw [h1] at h2 <;> exact absurd h2 (by decide)

theorem kmDisj_token_api : KMDisj kmToken kmApi := by
  intro k cs r cs' r' h h'
  have h1 := kmToken_fold h
  rcases kmApi_fold h' with h2 | h2 | h2 <;> rw [h1] at h2 <;> exact absurd h2 (by decide)

theorem kmDisj_secret_token : KMDisj kmSecret kmToken := by
  intro k cs r cs' r' h h'
  have h1 := kmSecret_fold h
  have h2 := kmToken_fold h'
  rw [h1] at h2
  exact absurd h2 (by decide)

theorem kmDisj_token_secret : KMDisj kmToken kmSecret := by
  intro k cs r cs' r' h h'
  have h1 := kmToken_fold h
  have h2 := kmSecret_fold h'
  rw [h1] at h2
  exact absurd h2 (by decide)

/-- If no `km'` match starts at the head of `a ++ cs` and `km` matches at
the head of `cs`, then replacing that match does not create a `km'` match
at the head either. -/
theorem tryScrub_block_none {km km' : KMFun} (G : GoodKM km) (G' : GoodKM km')
    (St : StableKM km') {a cs key rest : List Char} (ha : a ≠ [])
    (hm : tryScrub km cs = some (key, rest))
    (hnone : tryScrub km' (a ++ cs) = none) (Z : List Char) :
    tryScrub km' (a ++ (key ++ (redactTail ++ Z))) = none := by
  obtain ⟨b, mid, hcs, hb, hsp, hkm⟩ := tryScrub_decomp G hm
  have hX : DeadHead (b :: (mid ++ rest)) := hb
  have hrt : redactTail ++ Z
      = ':' :: (' ' :: '[' :: 'R' :: 'E' :: 'D' :: 'A' :: 'C' :: 'T' :: 'E' :: 'D' :: ']' :: Z) :=
    rfl
  have hX' : DeadHead (redactTail ++ Z) := by
    rw [hrt]
    exact (by decide : isKeyChar ':' = false)
  have hgoal_eq : a ++ (key ++ (redactTail ++ Z)) = (a ++ key) ++ (redactTail ++ Z) :=
    (List.append_assoc a key _).symm
  have hcs_eq : a ++ cs = (a ++ key) ++ (b :: (mid ++ rest)) := by
    rw [hcs, List.append_assoc]
  rw [hcs_eq] at hnone
  rw [hgoal_eq]
  rcases St (a ++ key) (b :: (mid ++ rest)) (redactTail ++ Z) hX hX' with
    ⟨h1, h2⟩ | ⟨k', w, hkw, h1, h2⟩
  · exact tryScrub_none_of_km_none h2
  · cases w with
    | nil =>
      rw [List.append_nil] at hkw
      exfalso
      have hsh' := G'.shape _ _ _ h2
      have hsh := G.shape _ _ _ hkm
      apply skel_not_infix hsh' hsh (p := a.map foldCase) (q := [])
      · intro hnil
        exact ha (List.map_eq_nil_iff.mp hnil)
      · rw [hkw, List.append_nil, List.map_append]
    | cons w0 w' =>
      have hwne : (w0 :: w') ≠ [] := List.cons_ne_nil _ _
      have hkeyne : key ≠ [] := G.key_ne_nil hkm
      obtain ⟨cl, hcl1, hcl2⟩ := G.key_getLast hkm
      have hlastw : (w0 :: w').getLast? = some cl := by
        have e1 : (k' ++ (w0 :: w')).getLast? = (w0 :: w').getLast? :=
          List.getLast?_append_of_ne_nil _ hwne
        have e2 : (a ++ key).getLast? = key.getLast? :=
          List.getLast?_append_of_ne_nil _ hkeyne
        rw [hkw, e2, hcl1] at e1
        exact e1.symm
      have hmt : matchScrubTail ((w0 :: w') ++ (b :: (mid ++ rest))) = none :=
        tryScrub_none_elim hnone h1
      have hmt' : matchScrubTail ((w0 :: w') ++ (redactTail ++ Z)) = none := by
        rw [hrt]
        exact matchScrubTail_stable hlastw hcl2 hmt
      exact tryScrub_none_intro h2 hmt'

/-- Rewriting the tail of the text never creates a pattern match at an
earlier position where none existed. -/
theorem subRun_none_pres {km km' : KMFun} (G : GoodKM km) (G' : GoodKM km')
    (St : StableKM km') :
    ∀ (n : Nat) (cs : List Char), cs.length ≤ n → ∀ a, a ≠ [] →
      tryScrub km' (a ++ cs) = none → tryScrub km' (a ++ subRun km cs) = none := by
  intro n
  induction n with
  | zero =>
    intro cs h a ha hn
    rw [Nat.le_zero, List.length_eq_zero] at h
    subst h
    exact hn
  | succ m ih =>
    intro cs h a ha hn
    cases cs with
    | nil => exact hn
    | cons c cs' =>
      simp only [List.length_cons] at h
      cases hts : tryScrub km (c :: cs') with
      | none =>
        rw [subRun_skip hts]
        have heq : a ++ c :: subRun km cs' = (a ++ [c]) ++ subRun km cs' := by simp
        rw [heq]
        refine ih cs' (by omega) (a ++ [c]) (by simp) ?_
        have heq2 : (a ++ [c]) ++ cs' = a ++ c :: cs' := by simp
        rw [heq2]
        exact hn
      | some kr =>
        obtain ⟨key, rest⟩ := kr
        rw [subRun_match G hts]
        exact tryScrub_block_none G G' St ha hts hn (subRun km rest)

theorem suffix_append_cases {t A B : List Char} (h : t <:+ A ++ B) :
    t <:+ B ∨ ∃ y, y <:+ A ∧ y ≠ [] ∧ t = y ++ B := by
  obtain ⟨p, hp⟩ := h
  rcases List.append_eq_append_iff.mp hp with ⟨y, hy1, hy2⟩ | ⟨c, hc1, hc2⟩
  · cases y with
    | nil =>
      left
      rw [hy2]
      exact List.suffix_refl _
    | cons y0 y' =>
      right
      exact ⟨y0 :: y', ⟨p, hy1.symm⟩, List.cons_ne_nil _ _, hy2⟩
  · left
    exact ⟨c, hc2.symm⟩

/-- No match can start strictly inside a preserved key. -/
theorem tryScrub_none_keyCut {km : KMFun} (G : GoodKM km) (St : StableKM km)
    {key x y : List Char} (hkey : scrubSkel (key.map foldCase))
    (hxy : x ++ y = key) (hx : x ≠ []) {W : List Char} ( _hW : SpHead W) :
    tryScrub km (y ++ (redactTail ++ W)) = none := by
  have hrt : redactTail ++ W
      = ':' :: (' ' :: '[' :: 'R' :: 'E' :: 'D' :: 'A' :: 'C' :: 'T' :: 'E' :: 'D' :: ']' :: W) :=
    rfl
  have hX : DeadHead (redactTail ++ W) := by
    rw [hrt]
    exact (by decide : isKeyChar ':' = false)
  rcases St y (redactTail ++ W) (redactTail ++ W) hX hX with ⟨h1, _⟩ | ⟨k', w, hkw, h1, _⟩
  · exact tryScrub_none_of_km_none h1
  · exfalso
    have hsh := G.shape _ _ _ h1
    apply skel_not_infix hkey hsh (p := x.map foldCase) (q := w.map foldCase)
    · intro hnil
      exact hx (List.map_eq_nil_iff.mp hnil)
    · rw [← List.map_append, ← List.map_append, hkw, hxy]

/-- No match can start inside the replacement tail. -/
theorem tryScrub_none_rtCut {km : KMFun} (G : GoodKM km) (St : StableKM km)
    {y : List Char} (hy : y <:+ redactTail) {W : List Char} (hW : SpHead W) :
    tryScrub km (y ++ W) = none := by
  have hWd : DeadHead W := DeadHead_of_spHead hW
  rcases St y W W hWd hWd with ⟨h1, _⟩ | ⟨k', w, hkw, h1, _⟩
  · exact tryScrub_none_of_km_none h1
  · exfalso
    have hsh := G.shape _ _ _ h1
    obtain ⟨x, hx⟩ := hy
    have h12 : redactTail.length = 12 := rfl
    have hj : x.length < 13 := by
      have hlen := congrArg List.length hx
      simp only [List.length_append] at hlen
      omega
    apply skel_not_inside_rt hsh hj (w := w.map foldCase)
    rw [← List.map_append, hkw, ← List.map_drop, ← hx, List.drop_left]

/-- No match of `km` can start at the head of a block just rewritten for a
different matcher `km'`. -/
theorem tryScrub_none_atBlock {km km' : KMFun} (G : GoodKM km) (G' : GoodKM km')
    (St : StableKM km) (hd : KMDisj km km')
    {cs₀ key' r₀ : List Char} (hk' : km' cs₀ = some (key', r₀))
    {W : List Char} ( _hW : SpHead W) :
    tryScrub km (key' ++ (redactTail ++ W)) = none := by
  have hrt : redactTail ++ W
      = ':' :: (' ' :: '[' :: 'R' :: 'E' :: 'D' :: 'A' :: 'C' :: 'T' :: 'E' :: 'D' :: ']' :: W) :=
    rfl
  have hX : DeadHead (redactTail ++ W) := by
    rw [hrt]
    exact (by decide : isKeyChar ':' = false)
  rcases St key' (redactTail ++ W) (redactTail ++ W) hX hX with ⟨h1, _⟩ | ⟨k', w, hkw, h1, _⟩
  · exact tryScrub_none_of_km_none h1
  · exfalso
    cases w with
    | nil =>
      rw [List.append_nil] at hkw
      subst hkw
      exact hd _ _ _ _ _ h1 hk'
    | cons w0 w' =>
      have hsh := G.shape _ _ _ h1
      have hsh' := G'.shape _ _ _ hk'
      apply skel_not_proper_front hsh' hsh (w := (w0 :: w').map foldCase)
      · simp
      · rw [← List.map_append, hkw]

theorem subRun_keep_front {km : KMFun} :
    ∀ (P z : List Char), (∀ Q, Q ≠ [] → Q <:+ P → tryScrub km (Q ++ z) = none) →
      subRun km (P ++ z) = P ++ subRun km z := by
  intro P
  induction P with
  | nil => intro z _; rfl
  | cons a P' ih =>
    intro z hQ
    have h0 : tryScrub km ((a :: P') ++ z) = none :=
      hQ (a :: P') (List.cons_ne_nil _ _) (List.suffix_refl _)
    rw [List.cons_append] at h0 ⊢
    rw [subRun_skip h0]
    rw [ih z (fun Q hQn hQs => hQ Q hQn (hQs.trans (List.suffix_cons a P')))]
    rw [List.cons_append]

/-- A block `key ++ redactTail` produced for matcher `km'` passes through a
`km`-substitution pass untouched; only the text after it is rewritten. -/
theorem subRun_block {km km' : KMFun} (G : GoodKM km) (G' : GoodKM km')
    (St : StableKM km) (hd : KMDisj km km')
    {cs₀ key' r₀ : List Char} (hk' : km' cs₀ = some (key', r₀))
    {z : List Char} (hz : SpHead z) :
    subRun km (key' ++ (redactTail ++ z)) = key' ++ (redactTail ++ subRun km z) := by
  have hmain : ∀ Q, Q ≠ [] → Q <:+ key' ++ redactTail → tryScrub km (Q ++ z) = none := by
    intro Q hQn hQs
    rcases suffix_append_cases hQs with hQ1 | ⟨y, hy, hyn, rfl⟩
    · exact tryScrub_none_rtCut G St hQ1 hz
    · obtain ⟨x, hx⟩ := hy
      rw [List.append_assoc]
      cases x with
      | nil =>
        simp only [List.nil_append] at hx
        subst hx
        exact tryScrub_none_atBlock G G' St hd hk' hz
      | cons x0 x' =>
        exact tryScrub_none_keyCut G St (G'.shape _ _ _ hk') hx (List.cons_ne_nil _ _) hz
  have heq : key' ++ (redactTail ++ z) = (key' ++ redactTail) ++ z :=
    (List.append_assoc key' redactTail z).symm
  rw [heq, subRun_keep_front (key' ++ redactTail) z hmain, List.append_assoc]

/-- Every suffix position of a normalised text either starts no match or
starts an exact, already-replaced (canonical) match. -/
def Sane (km : KMFun) (s : List Char) : Prop :=
  ∀ t, t <:+ s →
    tryScrub km t = none ∨
    ∃ key z, tryScrub km t = some (key, z) ∧ t = key ++ (redactTail ++ z) ∧ SpHead z

theorem Sane.suffix {km : KMFun} {s t : List Char} (h : Sane km s) (hts : t <:+ s) :
    Sane km t :=
  fun u hu => h u (hu.trans hts)

theorem sane_nil {km : KMFun} (G : GoodKM km) : Sane km [] := by
  intro t ht
  left
  rw [List.suffix_nil.mp ht]
  exact tryScrub_nil G

/-- A substitution pass leaves a text whose every position is sane fixed:
skips reproduce it, and canonical blocks are rewritten to themselves. -/
theorem subRun_fix_of_sane {km : KMFun} (G : GoodKM km) :
    ∀ (n : Nat) (s : List Char), s.length ≤ n → Sane km s → subRun km s = s := by
  intro n
  induction n with
  | zero =>
    intro s h _
    rw [Nat.le_zero, List.length_eq_zero] at h
    subst h
    rfl
  | succ m ih =>
    intro s hlen hs
    rcases hs s (List.suffix_refl s) with hnone | ⟨key, z, hsome, hshape, hz⟩
    · cases s with
      | nil => rfl
      | cons c cs =>
        rw [subRun_skip hnone]
        rw [ih cs (by simp only [List.length_cons] at hlen; omega)
          (Sane.suffix hs (List.suffix_cons c cs))]
    · cases s with
      | nil =>
        exfalso
        have h0 := hshape.symm
        rw [List.append_eq_nil] at h0
        have h1 := h0.2
        rw [List.append_eq_nil] at h1
        exact absurd h1.1 (by decide)
      | cons c cs =>
        rw [subRun_match G hsome, hshape]
        have h12 : redactTail.length = 12 := rfl
        have hzlen : z.length ≤ m := by
          have hl := congrArg List.length hshape
          simp only [List.length_cons, List.length_append] at hl
          simp only [List.length_cons] at hlen
          omega
        rw [ih z hzlen (Sane.suffix hs ⟨key ++ redactTail, by rw [hshape]; simp⟩)]

/-- After a `km`-substitution pass the text is `km`-sane. -/
theorem sane_subRun_self {km : KMFun} (G : GoodKM km) (St : StableKM km) :
    ∀ (n : Nat) (l : List Char), l.length ≤ n → Sane km (subRun km l) := by
  intro n
  induction n with
  | zero =>
    intro l h
    rw [Nat.le_zero, List.length_eq_zero] at h
    subst h
    exact sane_nil G
  | succ m ih =>
    intro l hlen
    cases l with
    | nil => exact sane_nil G
    | cons c cs =>
      simp only [List.length_cons] at hlen
      cases hts : tryScrub km (c :: cs) with
      | none =>
        have hS := ih cs (by omega)
        intro t ht
        rw [subRun_skip hts] at ht
        rcases List.suffix_cons_iff.mp ht with rfl | ht'
        · left
          exact subRun_none_pres G G St cs.length cs le_rfl [c] (by simp) hts
        · exact hS t ht'
      | some kr =>
        obtain ⟨key, rest⟩ := kr
        obtain ⟨b, mid, hcs, hb, hsp, hkm⟩ := tryScrub_decomp G hts
        have hrlen : rest.length ≤ m := by
          have := tryScrub_consume G hts
          omega
        have hS := ih rest hrlen
        have hzW : SpHead (subRun km rest) := SpHead_subRun G hsp
        intro t ht
        rw [subRun_match G hts] at ht
        rcases suffix_append_cases ht with ht1 | ⟨y, hy, hyn, rfl⟩
        · rcases suffix_append_cases ht1 with ht2 | ⟨y, hy, hyn, rfl⟩
          · exact hS t ht2
          · left
            exact tryScrub_none_rtCut G St hy hzW
        · obtain ⟨x, hx⟩ := hy
          cases x with
          | nil =>
            simp only [List.nil_append] at hx
            subst hx
            right
            exact ⟨y, subRun km rest, tryScrub_canonical G hkm hzW, rfl, hzW⟩
          | cons x0 x' =>
            left
            exact tryScrub_none_keyCut G St (G.shape _ _ _ hkm) hx
              (List.cons_ne_nil _ _) hzW

/-- A `km`-substitution pass preserves `km'`-saneness for a different
matcher `km'` with disjoint keys. -/
theorem sane_subRun_cross {km km' : KMFun} (G : GoodKM km) (G' : GoodKM km')
    (St : StableKM km) (St' : StableKM km')
    (hd : KMDisj km km') (hd' : KMDisj km' km) :
    ∀ (n : Nat) (s : List Char), s.length ≤ n → Sane km' s → Sane km' (subRun km s) := by
  intro n
  induction n with
  | zero =>
    intro s h _
    rw [Nat.le_zero, List.length_eq_zero] at h
    subst h
    exact sane_nil G'
  | succ m ih =>
    intro s hlen hs
    cases s with
    | nil => exact sane_nil G'
    | cons c cs =>
      simp only [List.length_cons] at hlen
      cases hts : tryScrub km (c :: cs) with
      | none =>
        have hScs : Sane km' (subRun km cs) :=
          ih cs (by omega) (Sane.suffix hs (List.suffix_cons c cs))
        intro t ht
        rw [subRun_skip hts] at ht
        rcases List.suffix_cons_iff.mp ht with rfl | ht'
        · rcases hs (c :: cs) (List.suffix_refl _) with hn' | ⟨key', z, hsome', hshape', hz'⟩
          · left
            exact subRun_none_pres G G' St' cs.length cs le_rfl [c] (by simp) hn'
          · right
            obtain ⟨r1, hk'⟩ := tryScrub_some_elim hsome'
            have hblock : subRun km (c :: cs) = key' ++ (redactTail ++ subRun km z) := by
              rw [hshape']
              exact subRun_block G G' St hd hk' hz'
            have hskip : subRun km (c :: cs) = c :: subRun km cs := subRun_skip hts
            refine ⟨key', subRun km z, ?_, ?_, SpHead_subRun G hz'⟩
            · rw [← hskip, hblock]
              exact tryScrub_canonical G' hk' (SpHead_subRun G hz')
            · rw [← hskip, hblock]
        · exact hScs t ht'
      | some kr =>
        obtain ⟨key, rest⟩ := kr
        obtain ⟨b, mid, hcs, hb, hsp, hkm⟩ := tryScrub_decomp G hts
        have hrest_suffix : rest <:+ c :: cs := by
          rw [hcs]
          exact ⟨key ++ b :: mid, by simp⟩
        have hrlen : rest.length ≤ m := by
          have := tryScrub_consume G hts
          omega
        have hS := ih rest hrlen (Sane.suffix hs hrest_suffix)
        have hzW : SpHead (subRun km rest) := SpHead_subRun G hsp
        intro t ht
        rw [subRun_match G hts] at ht
        rcases suffix_append_cases ht with ht1 | ⟨y, hy, hyn, rfl⟩
        · rcases suffix_append_cases ht1 with ht2 | ⟨y, hy, hyn, rfl⟩
          · exact hS t ht2
          · left
            exact tryScrub_none_rtCut G' St' hy hzW
        · obtain ⟨x, hx⟩ := hy
          cases x with
          | nil =>
            simp only [List.nil_append] at hx
            subst hx
            left
            exact tryScrub_none_atBlock G' G St' hd' hkm hzW
          | cons x0 x' =>
            left
            exact tryScrub_none_keyCut G' St' (G.shape _ _ _ hkm) hx
              (List.cons_ne_nil _ _) hzW

theorem scrub_run_idem (l : List Char) :
    subRun kmToken (subRun kmSecret (subRun kmApi
      (subRun kmToken (subRun kmSecret (subRun kmApi l)))))
    = subRun kmToken (subRun kmSecret (subRun kmApi l)) := by
  have sA : Sane kmApi (subRun kmToken (subRun kmSecret (subRun kmApi l))) := by
    have s1 : Sane kmApi (subRun kmApi l) :=
      sane_subRun_self goodKM_kmApi kmApi_stable l.length l le_rfl
    have s2 : Sane kmApi (subRun kmSecret (subRun kmApi l)) :=
      sane_subRun_cross goodKM_kmSecret goodKM_kmApi kmSecret_stable kmApi_stable
        kmDisj_secret_api kmDisj_api_secret _ _ le_rfl s1
    exact sane_subRun_cross goodKM_kmToken goodKM_kmApi kmToken_stable kmApi_stable
      kmDisj_token_api kmDisj_api_token _ _ le_rfl s2
  have sS : Sane kmSecret (subRun kmToken (subRun kmSecret (subRun kmApi l))) := by
    have s1 : Sane kmSecret (subRun kmSecret (subRun kmApi l)) :=
      sane_subRun_self goodKM_kmSecret kmSecret_stable _ _ le_rfl
    exact sane_subRun_cross goodKM_kmToken goodKM_kmSecret kmToken_stable kmSecret_stable
      kmDisj_token_secret kmDisj_secret_token _ _ le_rfl s1
  have sT : Sane kmToken (subRun kmToken (subRun kmSecret (subRun kmApi l))) :=
    sane_subRun_self goodKM_kmToken kmToken_stable _ _ le_rfl
  have hA := subRun_fix_of_sane goodKM_kmApi _ _ le_rfl sA
  have hS := subRun_fix_of_sane goodKM_kmSecret _ _ le_rfl sS
  have hT := subRun_fix_of_sane goodKM_kmToken _ _ le_rfl sT
  rw [hA, hS, hT]

/-- C7: `secret_scrub` is idempotent: running the three secret-redaction
substitutions over already-scrubbed text changes nothing. -/
theorem c7_secret_scrub_idempotent (txt : String) :
    secret_scrub (secret_scrub txt) = secret_scrub txt :=
  congrArg String.mk (scrub_run_idem txt.data)

end Contexter
